import Mathlib

/-!
# RingBufferQueue

A shallow embedding of `RingBufferQueue<T>` (src/RingBuffer.h) and the
properties of it that the specification states.

* `uint32_t` fields are natural numbers; every sum the source forms in
  `uint32_t` is reduced modulo `2 ^ 32` explicitly.
* The raw pointer `T* data` is a `Storage T`: null, an owned array whose
  cells are listed, or an indeterminate (never initialised) pointer.
* Undefined behaviour of the C++ source (division by zero, access outside
  the array, use of a null or indeterminate pointer) is an explicit
  `Fault`; operations that can reach it return `Except Fault _`.
* `compare_exchange_weak` takes one boolean per attempt that says whether
  the attempt fails spuriously; the CAS loops count their attempts against
  a fuel bound, since the source loop need not terminate.
-/

namespace RingBuffer

/-- The modulus of `uint32_t` arithmetic. -/
def UINT32_MOD : Nat := 2 ^ 32

/-- What the C++ source leaves undefined, plus the bound of the loop model. -/
inductive Fault where
  | divByZero
  | outOfBounds
  | nullPointer
  | indeterminatePointer
  | outOfFuel
  deriving DecidableEq, Repr

deriving instance DecidableEq for Except

/-- The value of the member `T* data`. -/
inductive Storage (T : Type) where
  | null
  | indeterminate
  | array (cells : List T)
  deriving DecidableEq, Repr

namespace Storage

variable {T : Type}

/-- Number of slots the pointer owns. -/
def size : Storage T → Nat
  | null => 0
  | indeterminate => 0
  | array cells => cells.length

/-- The read `data[i]`. -/
def read : Storage T → Nat → Except Fault T
  | null, _ => .error .nullPointer
  | indeterminate, _ => .error .indeterminatePointer
  | array cells, i =>
    match cells[i]? with
    | some x => .ok x
    | none => .error .outOfBounds

/-- The write `data[i] = val`. -/
def write : Storage T → Nat → T → Except Fault (Storage T)
  | null, _, _ => .error .nullPointer
  | indeterminate, _, _ => .error .indeterminatePointer
  | array cells, i, val =>
    if i < cells.length then .ok (array (cells.set i val)) else .error .outOfBounds

/-- The statement `delete[] data`: fine on null and on an owned array. -/
def delete : Storage T → Except Fault Unit
  | null => .ok ()
  | indeterminate => .error .indeterminatePointer
  | array _ => .ok ()

/-- The expression `new T[n]`: `n` default-constructed cells (for a `T`
without a constructor their values are not fixed by the source; no theorem
below reads a cell that was not written). -/
def new [Inhabited T] (n : Nat) : Storage T :=
  array (List.replicate n default)

/-- The call `std::copy(src, src + n, dst)`: the first `n` cells of `dst` are
overwritten by the first `n` cells of `src`. Both pointer values are read; an
empty range dereferences neither. -/
def copy : Storage T → Nat → Storage T → Except Fault (Storage T)
  | indeterminate, _, _ => .error .indeterminatePointer
  | _, _, indeterminate => .error .indeterminatePointer
  | _, 0, dst => .ok dst
  | null, _, _ => .error .nullPointer
  | _, _, null => .error .nullPointer
  | array from_cells, n, array to_cells =>
    if n ≤ from_cells.length ∧ n ≤ to_cells.length then
      .ok (array (from_cells.take n ++ to_cells.drop n))
    else .error .outOfBounds

end Storage

/-- The data members of `RingBufferQueue<T>`. -/
structure RingBufferQueue (T : Type) where
  is_lock_free : Bool
  capacity : Nat
  head : Nat
  tail : Nat
  data : Storage T
  deriving DecidableEq, Repr

variable {T : Type}

namespace RingBufferQueue

/-- The constructor `RingBufferQueue(uint32_t max_capacity, bool lock_free)`. -/
def construct [Inhabited T] (max_capacity : Nat) (lock_free : Bool) : RingBufferQueue T :=
  let capacity := (max_capacity + 1) % UINT32_MOD
  { is_lock_free := lock_free
    capacity := capacity
    head := 0
    tail := 0
    data := if capacity > 0 then Storage.new capacity else Storage.null }

/-- The copy constructor. With `capacity == 0` the member `data` is never
assigned. -/
def copyConstruct [Inhabited T] (q : RingBufferQueue T) : Except Fault (RingBufferQueue T) :=
  if q.capacity > 0 then
    match Storage.copy q.data q.capacity (Storage.new q.capacity) with
    | .ok d =>
      .ok { is_lock_free := q.is_lock_free, capacity := q.capacity,
            head := q.head, tail := q.tail, data := d }
    | .error e => .error e
  else
    .ok { is_lock_free := q.is_lock_free, capacity := q.capacity,
          head := q.head, tail := q.tail, data := Storage.indeterminate }

/-- The move constructor: the new queue, and the source after the move. -/
def moveConstruct (q : RingBufferQueue T) : RingBufferQueue T × RingBufferQueue T :=
  ({ is_lock_free := q.is_lock_free, capacity := q.capacity,
     head := q.head, tail := q.tail, data := q.data },
   { q with data := Storage.null, capacity := 0, head := 0, tail := 0 })

/-- Copy assignment `*this = q`. `same` says whether `this == &q`; the
result is the new `*this` (the source is a `const&` and is not written). -/
def copyAssign [Inhabited T] (this q : RingBufferQueue T) (same : Bool) :
    Except Fault (RingBufferQueue T) :=
  if same then .ok this
  else
    match Storage.delete this.data with
    | .error e => .error e
    | .ok () =>
      match Storage.copy q.data q.capacity (Storage.new q.capacity) with
      | .ok d =>
        .ok { is_lock_free := q.is_lock_free, capacity := q.capacity,
              head := q.head, tail := q.tail, data := d }
      | .error e => .error e

/-- The method `IsFull`: `(tail_cur + 1) % capacity == head_cur`. -/
def IsFull (q : RingBufferQueue T) : Except Fault Bool :=
  if q.capacity = 0 then .error .divByZero
  else .ok (decide ((q.tail + 1) % UINT32_MOD % q.capacity = q.head))

/-- The method `IsEmpty`. -/
def IsEmpty (q : RingBufferQueue T) : Bool :=
  decide (q.head = q.tail)

/-- The method `GetCapacity`: `capacity - 1` in `uint32_t`. -/
def GetCapacity (q : RingBufferQueue T) : Nat :=
  (q.capacity + UINT32_MOD - 1) % UINT32_MOD

/-- The method `IsLockFree`. -/
def IsLockFree (q : RingBufferQueue T) : Bool :=
  q.is_lock_free

/-- The private method `EnqueueNoLockFree`. -/
def EnqueueNoLockFree (q : RingBufferQueue T) (val : T) : Except Fault (RingBufferQueue T) :=
  match q.data.write q.tail val with
  | .error e => .error e
  | .ok d =>
    if q.capacity = 0 then .error .divByZero
    else .ok { q with data := d, tail := (q.tail + 1) % UINT32_MOD % q.capacity }

/-- The private method `DequeueNoLockFree`: the new `result` and the queue. -/
def DequeueNoLockFree (q : RingBufferQueue T) : Except Fault (T × RingBufferQueue T) :=
  match q.data.read q.head with
  | .error e => .error e
  | .ok x =>
    if q.capacity = 0 then .error .divByZero
    else .ok (x, { q with head := (q.head + 1) % UINT32_MOD % q.capacity })

end RingBufferQueue

/-- One call `a.compare_exchange_weak(expected, desired)` with no other thread
interfering: `(returned, a, expected)` afterwards. `spurious` lets the call
fail although `a == expected`. -/
def compare_exchange_weak (spurious : Bool) (a expected desired : Nat) : Bool × Nat × Nat :=
  if a = expected ∧ spurious = false then (true, desired, expected)
  else (false, a, a)

namespace RingBufferQueue

/-- The loop of `EnqueueLockFree`, one CAS attempt per unit of fuel. The head
of `weak` tells whether the attempt fails spuriously (none left: it does
not). -/
def EnqueueLockFreeLoop (val : T) :
    Nat → List Bool → RingBufferQueue T → Nat → Except Fault (RingBufferQueue T)
  | 0, _, _, _ => .error .outOfFuel
  | fuel + 1, weak, q, tail_cur =>
    if q.capacity = 0 then .error .divByZero
    else
      match compare_exchange_weak (weak.headD false) q.tail tail_cur
          ((tail_cur + 1) % UINT32_MOD % q.capacity) with
      | (true, tail_new, tail_cur_new) =>
        match q.data.write tail_cur_new val with
        | .error e => .error e
        | .ok d =>
          EnqueueLockFreeLoop val fuel weak.tail { q with tail := tail_new, data := d }
            tail_cur_new
      | (false, tail_new, _) => .ok { q with tail := tail_new }

/-- The private method `EnqueueLockFree`. -/
def EnqueueLockFree (fuel : Nat) (weak : List Bool) (q : RingBufferQueue T) (val : T) :
    Except Fault (RingBufferQueue T) :=
  EnqueueLockFreeLoop val fuel weak q q.tail

/-- One pass of the loop of `EnqueueLockFree`, made by a thread whose local
`tail_cur` is given on the queue as the other threads have left it: the CAS
and, when it succeeds, the store of the loop body. The flag tells whether the
loop goes on to another pass; the last component is `tail_cur` afterwards. -/
def EnqueueLockFreePass (val : T) (spurious : Bool) (q : RingBufferQueue T) (tail_cur : Nat) :
    Except Fault (Bool × RingBufferQueue T × Nat) :=
  if q.capacity = 0 then .error .divByZero
  else
    match compare_exchange_weak spurious q.tail tail_cur
        ((tail_cur + 1) % UINT32_MOD % q.capacity) with
    | (true, tail_new, tail_cur_new) =>
      match q.data.write tail_cur_new val with
      | .error e => .error e
      | .ok d => .ok (true, { q with tail := tail_new, data := d }, tail_cur_new)
    | (false, tail_new, tail_cur_new) => .ok (false, { q with tail := tail_new }, tail_cur_new)

/-- The loop of `DequeueLockFree`, carrying the caller's `result`. -/
def DequeueLockFreeLoop :
    Nat → List Bool → RingBufferQueue T → Nat → T → Except Fault (T × RingBufferQueue T)
  | 0, _, _, _, _ => .error .outOfFuel
  | fuel + 1, weak, q, head_cur, result =>
    if q.capacity = 0 then .error .divByZero
    else
      match compare_exchange_weak (weak.headD false) q.head head_cur
          ((head_cur + 1) % UINT32_MOD % q.capacity) with
      | (true, head_new, head_cur_new) =>
        match q.data.read head_cur_new with
        | .error e => .error e
        | .ok x =>
          DequeueLockFreeLoop fuel weak.tail { q with head := head_new } head_cur_new x
      | (false, head_new, _) => .ok (result, { q with head := head_new })

/-- The private method `DequeueLockFree`. -/
def DequeueLockFree (fuel : Nat) (weak : List Bool) (q : RingBufferQueue T) (result : T) :
    Except Fault (T × RingBufferQueue T) :=
  DequeueLockFreeLoop fuel weak q q.head result

/-- The method `Enqueue`: the returned flag and the queue afterwards. -/
def Enqueue (fuel : Nat) (weak : List Bool) (q : RingBufferQueue T) (val : T) :
    Except Fault (Bool × RingBufferQueue T) :=
  match q.IsFull with
  | .error e => .error e
  | .ok true => .ok (false, q)
  | .ok false =>
    if q.is_lock_free then
      match q.EnqueueLockFree fuel weak val with
      | .error e => .error e
      | .ok q1 => .ok (true, q1)
    else
      match q.EnqueueNoLockFree val with
      | .error e => .error e
      | .ok q1 => .ok (true, q1)

/-- The method `Dequeue`: the returned flag, the caller's `result` variable
afterwards, and the queue afterwards. -/
def Dequeue (fuel : Nat) (weak : List Bool) (q : RingBufferQueue T) (result : T) :
    Except Fault (Bool × T × RingBufferQueue T) :=
  if q.IsEmpty then .ok (false, result, q)
  else if q.is_lock_free then
    match q.DequeueLockFree fuel weak result with
    | .error e => .error e
    | .ok (r, q1) => .ok (true, r, q1)
  else
    match q.DequeueNoLockFree with
    | .error e => .error e
    | .ok (r, q1) => .ok (true, r, q1)


/-- The `do ... while (next != q.tail)` loop of `operator<<`, one pass per unit
of fuel: `os` is the text written so far and `fmt` the insertion of one `T`. -/
def operator_lshift_loop (fmt : T → String) (q : RingBufferQueue T) :
    Nat → Nat → String → Except Fault String
  | 0, _, _ => .error .outOfFuel
  | fuel + 1, next, os =>
    let os1 := if next ≠ q.head then os ++ ", " else os
    match q.data.read next with
    | .error e => .error e
    | .ok x =>
      if q.capacity = 0 then .error .divByZero
      else if (next + 1) % UINT32_MOD % q.capacity ≠ q.tail then
        operator_lshift_loop fmt q fuel ((next + 1) % UINT32_MOD % q.capacity) (os1 ++ fmt x)
      else .ok (os1 ++ fmt x)

/-- The friend `operator<<(os, q)`: the text of the stream afterwards. The
queue is a `const&` and is not written. -/
def operator_lshift (fuel : Nat) (fmt : T → String) (os : String) (q : RingBufferQueue T) :
    Except Fault String :=
  if q.IsEmpty then .ok (os ++ "[]" ++ "\n")
  else
    match operator_lshift_loop fmt q fuel q.head (os ++ "[") with
    | .error e => .error e
    | .ok os1 => .ok (os1 ++ "]" ++ "\n")

/-! ### Notions of the specification -/

/-- The state owns an array of exactly `capacity` cells, as `new T[capacity]`
provides. -/
def Allocated (q : RingBufferQueue T) (cells : List T) : Prop :=
  q.data = Storage.array cells ∧ cells.length = q.capacity

/-- The number of stored elements, `(tail - head) mod capacity`. -/
def count (q : RingBufferQueue T) : Nat :=
  (q.tail + q.capacity - q.head) % q.capacity

/-- The cells met on `n` steps from index `i`, each step `(i + 1) mod capacity`. -/
def slotsFrom (cells : List T) (capacity : Nat) : Nat → Nat → List T
  | _, 0 => []
  | i, n + 1 =>
    match cells[i]? with
    | some x => x :: slotsFrom cells capacity ((i + 1) % capacity) n
    | none => []

/-- The logical contents: the slots from `head` up to but excluding `tail`,
in modular order. -/
def contents (q : RingBufferQueue T) : List T :=
  match q.data with
  | Storage.array cells => slotsFrom cells q.capacity q.head q.count
  | _ => []

/-- The free slots of the owned storage: its size, less the separator slot,
less the stored elements. -/
def freeSpace (q : RingBufferQueue T) : Nat :=
  q.data.size - 1 - q.count

/-- The calls `Enqueue(v)` for each `v` of a list, in order: the returned
flags and the final queue. -/
def enqueueAll (fuel : Nat) (weak : List Bool) :
    RingBufferQueue T → List T → Except Fault (List Bool × RingBufferQueue T)
  | q, [] => .ok ([], q)
  | q, v :: vs =>
    match q.Enqueue fuel weak v with
    | .error e => .error e
    | .ok (b, q1) =>
      match enqueueAll fuel weak q1 vs with
      | .error e => .error e
      | .ok (bs, q2) => .ok (b :: bs, q2)

/-- The call `Dequeue(val)` made `n` times, each on a variable holding `r0`:
the returned flag and the variable after each call, and the final queue. -/
def dequeueN (fuel : Nat) (weak : List Bool) (r0 : T) :
    RingBufferQueue T → Nat → Except Fault (List (Bool × T) × RingBufferQueue T)
  | q, 0 => .ok ([], q)
  | q, n + 1 =>
    match q.Dequeue fuel weak r0 with
    | .error e => .error e
    | .ok (b, r, q1) =>
      match dequeueN fuel weak r0 q1 n with
      | .error e => .error e
      | .ok (rs, q2) => .ok ((b, r) :: rs, q2)

/-- The states a queue built by `RingBufferQueue(N, lock_free)` can take
through calls of `Enqueue` and `Dequeue`. -/
inductive Reachable [Inhabited T] (N : Nat) (lock_free : Bool) : RingBufferQueue T → Prop
  | construct : N < UINT32_MOD → Reachable N lock_free (construct N lock_free)
  | enqueue {q q1 : RingBufferQueue T} {b : Bool} (fuel : Nat) (weak : List Bool) (v : T) :
      Reachable N lock_free q → q.Enqueue fuel weak v = .ok (b, q1) → Reachable N lock_free q1
  | dequeue {q q1 : RingBufferQueue T} {b : Bool} {r1 : T} (fuel : Nat) (weak : List Bool)
      (r : T) :
      Reachable N lock_free q → q.Dequeue fuel weak r = .ok (b, r1, q1) →
      Reachable N lock_free q1

/-- The pair `Enqueue(v)`, `Dequeue(val)` made for each `v` of a list, each
`val` holding `r0` before its call: per pair the two returned flags and `val`
afterwards, and the final queue. -/
def roundTrips (fuel : Nat) (weak : List Bool) (r0 : T) :
    RingBufferQueue T → List T → Except Fault (List (Bool × Bool × T) × RingBufferQueue T)
  | q, [] => .ok ([], q)
  | q, v :: vs =>
    match q.Enqueue fuel weak v with
    | .error e => .error e
    | .ok (b, q1) =>
      match q1.Dequeue fuel weak r0 with
      | .error e => .error e
      | .ok (b1, r, q2) =>
        match roundTrips fuel weak r0 q2 vs with
        | .error e => .error e
        | .ok (rs, q3) => .ok ((b, b1, r) :: rs, q3)

/-- The call `Dequeue(val)` followed by `Enqueue(val)`, made `n` times as in
the second loop of `TestRingBufferQueue` (src/Test.cpp): the values moved and
the final queue. -/
def rotate (fuel : Nat) (weak : List Bool) (r0 : T) :
    RingBufferQueue T → Nat → Except Fault (List T × RingBufferQueue T)
  | q, 0 => .ok ([], q)
  | q, n + 1 =>
    match q.Dequeue fuel weak r0 with
    | .error e => .error e
    | .ok (_, val, q1) =>
      match q1.Enqueue fuel weak val with
      | .error e => .error e
      | .ok (_, q2) =>
        match rotate fuel weak r0 q2 n with
        | .error e => .error e
        | .ok (vals, q3) => .ok (val :: vals, q3)

/-- The values `TestRingBufferQueue` (src/Test.cpp) pops in its last loop:
the default queue is filled with 0..99, rotated five times and drained. -/
def TestRingBufferQueue : Except Fault (List (Bool × Int)) :=
  match enqueueAll 0 [] (construct 100 false) ((List.range 100).map Int.ofNat) with
  | .error e => .error e
  | .ok (_, q) =>
    match rotate 0 [] 0 q 5 with
    | .error e => .error e
    | .ok (_, q1) =>
      match dequeueN 0 [] 0 q1 100 with
      | .error e => .error e
      | .ok (rs, _) => .ok rs

/-- The text of the elements of a list, each preceded by ", ". -/
def withCommas (fmt : T → String) : List T → String
  | [] => ""
  | x :: xs => ", " ++ fmt x ++ withCommas fmt xs

/-- The text of the elements of a list, separated by ", ". -/
def commaSeparated (fmt : T → String) : List T → String
  | [] => ""
  | x :: xs => fmt x ++ withCommas fmt xs

/-- One public call on a queue. -/
inductive Call (T : Type) where
  | enqueue (v : T)
  | dequeue
  deriving DecidableEq, Repr

/-- A sequence of calls, each `Dequeue` on a variable holding `r0`: the number
of calls of `Enqueue` that returned true, the number of calls of `Dequeue`
that returned true, and the final queue. -/
def runCalls (fuel : Nat) (weak : List Bool) (r0 : T) :
    RingBufferQueue T → List (Call T) → Except Fault (Nat × Nat × RingBufferQueue T)
  | q, [] => .ok (0, 0, q)
  | q, Call.enqueue v :: cs =>
    match q.Enqueue fuel weak v with
    | .error e => .error e
    | .ok (b, q1) =>
      match runCalls fuel weak r0 q1 cs with
      | .error e => .error e
      | .ok (ne, nd, q2) => .ok (ne + b.toNat, nd, q2)
  | q, Call.dequeue :: cs =>
    match q.Dequeue fuel weak r0 with
    | .error e => .error e
    | .ok (b, _, q1) =>
      match runCalls fuel weak r0 q1 cs with
      | .error e => .error e
      | .ok (ne, nd, q2) => .ok (ne, nd + b.toNat, q2)

/-- What holds of every state of a queue built with logical capacity `N`:
the capacity field, the mode, the index bounds and the owned array. -/
structure Inv (N : Nat) (lock_free : Bool) (q : RingBufferQueue T) : Prop where
  capacity_eq : q.capacity = N + 1
  mode_eq : q.is_lock_free = lock_free
  head_lt : q.head < q.capacity
  tail_lt : q.tail < q.capacity
  allocated : ∃ cells, q.Allocated cells

/-! ### Example states -/

/-- A plain queue of logical capacity 3 after `Enqueue` of 5, 10, 20 and one
`Dequeue`: it holds 10, 20 and its tail is on the last cell. -/
def wrapQueue : RingBufferQueue Int :=
  { is_lock_free := false, capacity := 4, head := 1, tail := 3,
    data := Storage.array [5, 10, 20, 0] }

/-- The queue `q3` of `TestingCopyAssignmentFunc` (src/Test.cpp): capacity 10,
`Enqueue(i * 2)` for `i < 10`, then five times `Dequeue` and `Enqueue(i * 3)`. -/
def copyDemoSource : RingBufferQueue Int :=
  { is_lock_free := false, capacity := 11, head := 5, tail := 4,
    data := Storage.array [3, 6, 9, 12, 8, 10, 12, 14, 16, 18, 0] }

/-- The copy-constructed copy of a moved-from queue such as `q2` of
`TestingCopyAssignmentFunc` after `q3(std::move(q2))`: capacity 0, and a
`data` member that the copy constructor never assigned. -/
def copyOfMovedFrom : RingBufferQueue Int :=
  { is_lock_free := false, capacity := 0, head := 0, tail := 0,
    data := Storage.indeterminate }

/-- A concurrent-mode queue of logical capacity 1 (two slots) shared by
several threads, with the given indices and cells. -/
def sharedQueue (head tail : Nat) (cells : List Int) : RingBufferQueue Int :=
  { is_lock_free := true, capacity := 2, head := head, tail := tail,
    data := Storage.array cells }

/-- The fresh concurrent-mode queue of logical capacity 2. -/
def lockFreeFresh : RingBufferQueue Int :=
  { is_lock_free := true, capacity := 3, head := 0, tail := 0,
    data := Storage.array [0, 0, 0] }

/-- The concurrent-mode queue of logical capacity 2 that holds the value 5. -/
def lockFreeHolding : RingBufferQueue Int :=
  { is_lock_free := true, capacity := 3, head := 0, tail := 1,
    data := Storage.array [5, 0, 0] }

/-! ### Index arithmetic -/

theorem uint32_succ_mod (i capacity : Nat) (hi : i < capacity) (h32 : capacity < UINT32_MOD) :
    (i + 1) % UINT32_MOD % capacity = (i + 1) % capacity := by
  have h : i + 1 < UINT32_MOD := by omega
  rw [Nat.mod_eq_of_lt h]

theorem succ_mod_cases (i capacity : Nat) (hi : i < capacity) :
    (i + 1) % capacity = if i + 1 = capacity then 0 else i + 1 := by
  split
  · next h => rw [h, Nat.mod_self]
  · next h => exact Nat.mod_eq_of_lt (by omega)

theorem IsFull_of_pos (q : RingBufferQueue T) (h : 1 ≤ q.capacity) :
    q.IsFull = .ok (decide ((q.tail + 1) % UINT32_MOD % q.capacity = q.head)) := by
  unfold IsFull
  rw [if_neg (by omega)]


theorem count_eq (q : RingBufferQueue T) (hh : q.head < q.capacity) (ht : q.tail < q.capacity) :
    q.count = if q.head ≤ q.tail then q.tail - q.head else q.tail + q.capacity - q.head := by
  unfold count
  split
  · next h =>
    have e : q.tail + q.capacity - q.head = q.tail - q.head + q.capacity := by omega
    rw [e, Nat.add_mod_right, Nat.mod_eq_of_lt (by omega)]
  · next h => exact Nat.mod_eq_of_lt (by omega)

/-! ### The two CAS loops, one attempt unfolded -/

theorem EnqueueLockFreeLoop_succ (val : T) (fuel : Nat) (weak : List Bool)
    (q : RingBufferQueue T) (tail_cur : Nat) (hc : q.capacity ≠ 0) :
    EnqueueLockFreeLoop val (fuel + 1) weak q tail_cur =
      if q.tail = tail_cur ∧ weak.headD false = false then
        match q.data.write tail_cur val with
        | .error e => .error e
        | .ok d =>
          EnqueueLockFreeLoop val fuel weak.tail
            { q with tail := (tail_cur + 1) % UINT32_MOD % q.capacity, data := d } tail_cur
      else .ok q := by
  simp only [EnqueueLockFreeLoop, compare_exchange_weak, if_neg hc]
  split_ifs <;> rfl

theorem DequeueLockFreeLoop_succ (fuel : Nat) (weak : List Bool)
    (q : RingBufferQueue T) (head_cur : Nat) (result : T) (hc : q.capacity ≠ 0) :
    DequeueLockFreeLoop (fuel + 1) weak q head_cur result =
      if q.head = head_cur ∧ weak.headD false = false then
        match q.data.read head_cur with
        | .error e => .error e
        | .ok x =>
          DequeueLockFreeLoop fuel weak.tail
            { q with head := (head_cur + 1) % UINT32_MOD % q.capacity } head_cur x
      else .ok (result, q) := by
  simp only [DequeueLockFreeLoop, compare_exchange_weak, if_neg hc]
  split_ifs <;> rfl

/-! ### Single calls -/

/-- C2. A plain-mode queue that owns its `capacity` cells, with
`tail < capacity`, that is not full: `Enqueue(v)` returns true, the slot at the
old tail holds `v`, tail becomes `(tail + 1) mod capacity`, and head, capacity,
mode and every other slot are as before (whatever head is). -/
theorem Enqueue_success_postcondition (fuel : Nat) (weak : List Bool)
    (q : RingBufferQueue T) (cells : List T) (v : T)
    (halloc : q.Allocated cells) (h32 : q.capacity < UINT32_MOD)
    (hplain : q.is_lock_free = false) (htail : q.tail < q.capacity)
    (hnotfull : q.IsFull = .ok false) :
    ∃ q1 cells1, q.Enqueue fuel weak v = .ok (true, q1) ∧
      q1.Allocated cells1 ∧
      cells1[q.tail]? = some v ∧
      q1.tail = (q.tail + 1) % q.capacity ∧
      q1.head = q.head ∧ q1.capacity = q.capacity ∧ q1.is_lock_free = q.is_lock_free ∧
      ∀ i, i ≠ q.tail → cells1[i]? = cells[i]? := by
  obtain ⟨hdata, hlen⟩ := halloc
  have hc : q.capacity ≠ 0 := by omega
  have hw : q.tail < cells.length := by omega
  refine ⟨{ q with data := Storage.array (cells.set q.tail v),
                   tail := (q.tail + 1) % q.capacity }, cells.set q.tail v, ?_, ?_, ?_, rfl, rfl,
    rfl, rfl, ?_⟩
  · simp [Enqueue, hnotfull, hplain, EnqueueNoLockFree, hdata, Storage.write, hw, hc,
      uint32_succ_mod q.tail q.capacity htail h32]
  · exact ⟨rfl, by simp [hlen]⟩
  · simp [hw]
  · intro i hi
    simp [List.getElem?_set, Ne.symm hi]

/-- C3. A plain-mode queue that owns its `capacity` cells, with
`head < capacity`, that is not empty: `Dequeue(result)` returns true, `result`
is the value in the slot at the old head, head becomes
`(head + 1) mod capacity`, and tail, capacity, mode and the whole buffer are as
before (whatever tail is). -/
theorem Dequeue_success_postcondition (fuel : Nat) (weak : List Bool)
    (q : RingBufferQueue T) (cells : List T) (result : T)
    (halloc : q.Allocated cells) (h32 : q.capacity < UINT32_MOD)
    (hplain : q.is_lock_free = false) (hhead : q.head < q.capacity)
    (hnotempty : q.IsEmpty = false) :
    ∃ x q1, q.Dequeue fuel weak result = .ok (true, x, q1) ∧
      cells[q.head]? = some x ∧
      q1.head = (q.head + 1) % q.capacity ∧
      q1.tail = q.tail ∧ q1.capacity = q.capacity ∧ q1.is_lock_free = q.is_lock_free ∧
      q1.data = q.data := by
  obtain ⟨hdata, hlen⟩ := halloc
  have hc : q.capacity ≠ 0 := by omega
  have hr : q.head < cells.length := by omega
  refine ⟨cells[q.head], { q with head := (q.head + 1) % q.capacity }, ?_, ?_, rfl, rfl, rfl,
    rfl, rfl⟩
  · simp [Dequeue, hnotempty, hplain, DequeueNoLockFree, hdata, Storage.read, hr, hc,
      uint32_succ_mod q.head q.capacity hhead h32]
  · simp [hr]


/-- C4. In either mode and for every state with `capacity >= 1`: `Enqueue(v)`
returns false if and only if the queue is full, `(tail + 1) % capacity == head`
as `IsFull` evaluates it in `uint32_t`; that is `(tail + 1) mod capacity == head`
whenever `tail + 1 < 2^32`, so for every `tail < capacity`; and a call that
returns false leaves head, tail, capacity, mode and buffer as they were. -/
theorem Enqueue_false_iff_full (fuel : Nat) (weak : List Bool) (q : RingBufferQueue T)
    (v : T) (hcap : 1 ≤ q.capacity) :
    ((∃ q1, q.Enqueue fuel weak v = .ok (false, q1)) ↔ q.IsFull = .ok true) ∧
      ((∃ q1, q.Enqueue fuel weak v = .ok (false, q1)) ↔
        (q.tail + 1) % UINT32_MOD % q.capacity = q.head) ∧
      (q.tail + 1 < UINT32_MOD →
        ((∃ q1, q.Enqueue fuel weak v = .ok (false, q1)) ↔
          (q.tail + 1) % q.capacity = q.head)) ∧
      ∀ q1, q.Enqueue fuel weak v = .ok (false, q1) → q1 = q := by
  have key : ((∃ q1, q.Enqueue fuel weak v = .ok (false, q1)) ↔
        (q.tail + 1) % UINT32_MOD % q.capacity = q.head) ∧
      ∀ q1, q.Enqueue fuel weak v = .ok (false, q1) → q1 = q := by
    unfold Enqueue
    rw [IsFull_of_pos q hcap]
    by_cases h : (q.tail + 1) % UINT32_MOD % q.capacity = q.head
    · simp only [h, decide_True, iff_true]
      exact ⟨⟨q, rfl⟩, fun q1 h1 => by cases h1; rfl⟩
    · simp only [h, decide_False, iff_false]
      constructor
      · rintro ⟨q1, h1⟩
        split at h1 <;> split at h1 <;> cases h1
      · intro q1 h1
        split at h1 <;> split at h1 <;> cases h1
  refine ⟨?_, key.1, ?_, key.2⟩
  · rw [key.1, IsFull_of_pos q hcap]
    simp
  · intro hlt
    rw [key.1, Nat.mod_eq_of_lt hlt]

/-- C5. In either mode and for every state, `Dequeue(result)` returns false if
and only if `head == tail`, and a call that returns false leaves the whole state
and the caller's `result` as they were. -/
theorem Dequeue_false_iff_empty (fuel : Nat) (weak : List Bool) (q : RingBufferQueue T)
    (result : T) :
    ((∃ r1 q1, q.Dequeue fuel weak result = .ok (false, r1, q1)) ↔ q.head = q.tail) ∧
      ∀ r1 q1, q.Dequeue fuel weak result = .ok (false, r1, q1) → q1 = q ∧ r1 = result := by
  unfold Dequeue IsEmpty
  by_cases h : q.head = q.tail
  · simp only [h, decide_True, if_true, iff_true]
    exact ⟨⟨result, q, rfl⟩, fun r1 q1 h1 => by cases h1; exact ⟨rfl, rfl⟩⟩
  · simp only [h, decide_False, Bool.false_eq_true, if_false, iff_false]
    constructor
    · rintro ⟨r1, q1, h1⟩
      split at h1 <;> split at h1 <;> cases h1
    · intro r1 q1 h1
      split at h1 <;> split at h1 <;> cases h1

/-! ### Construction -/

/-- C7. For every 32-bit `N` and either mode, the queue built with
`max_capacity = N` reports `GetCapacity() == N`, and the storage it owns has
`N + 1` slots, the sum taken modulo `2^32` like the capacity field. -/
theorem construct_capacity_and_storage [Inhabited T] (N : Nat) (lock_free : Bool)
    (hN : N < UINT32_MOD) :
    (construct N lock_free : RingBufferQueue T).GetCapacity = N ∧
      (construct N lock_free : RingBufferQueue T).data.size = (N + 1) % UINT32_MOD ∧
      (construct N lock_free : RingBufferQueue T).capacity = (N + 1) % UINT32_MOD := by
  refine ⟨?_, ?_, rfl⟩
  · simp only [GetCapacity, construct]
    by_cases h : N + 1 = UINT32_MOD
    · rw [h, Nat.mod_self]
      have h1 : 0 + UINT32_MOD - 1 = N := by omega
      rw [h1, Nat.mod_eq_of_lt hN]
    · have h1 : N + 1 < UINT32_MOD := by omega
      rw [Nat.mod_eq_of_lt h1]
      have h2 : N + 1 + UINT32_MOD - 1 = N + UINT32_MOD := by omega
      rw [h2, Nat.add_mod_right, Nat.mod_eq_of_lt hN]
  · simp only [construct]
    split
    · simp [Storage.new, Storage.size]
    · next h =>
      simp only [Storage.size]
      omega

/-- C8, for capacities whose successor fits 32 bits. Right after construction
with any `N` and either mode, `head == tail == 0` and `IsEmpty()` is
true; and when `0 < N` and `N + 1 < 2^32`, `IsFull()` is false. -/
theorem construct_fresh [Inhabited T] (N : Nat) (lock_free : Bool) :
    (construct N lock_free : RingBufferQueue T).head = 0 ∧
      (construct N lock_free : RingBufferQueue T).tail = 0 ∧
      (construct N lock_free : RingBufferQueue T).IsEmpty = true ∧
      (0 < N → N + 1 < UINT32_MOD →
        (construct N lock_free : RingBufferQueue T).IsFull = .ok false) := by
  refine ⟨rfl, rfl, by simp [IsEmpty, construct], ?_⟩
  intro hpos hfit
  have h2 : (2 : Nat) ≤ UINT32_MOD := by unfold UINT32_MOD; omega
  have e1 : 1 % UINT32_MOD = 1 := Nat.mod_eq_of_lt (by omega)
  have e2 : 1 % (N + 1) = 1 := Nat.mod_eq_of_lt (by omega)
  simp [IsFull, construct, Nat.mod_eq_of_lt hfit, e1, e2]


/-! ### Instances of the single-call and construction theorems -/

/-- Instance of C2 on `wrapQueue`: the tail wraps from 3 to 0. -/
theorem Enqueue_success_postcondition_witness :
    wrapQueue.Allocated [5, 10, 20, 0] ∧ wrapQueue.capacity < UINT32_MOD ∧
      wrapQueue.is_lock_free = false ∧ wrapQueue.tail < wrapQueue.capacity ∧
      wrapQueue.IsFull = .ok false ∧
      ∃ q1 cells1, wrapQueue.Enqueue 0 [] 30 = .ok (true, q1) ∧
        q1.Allocated cells1 ∧
        cells1[wrapQueue.tail]? = some 30 ∧
        q1.tail = (wrapQueue.tail + 1) % wrapQueue.capacity ∧
        q1.head = wrapQueue.head ∧ q1.capacity = wrapQueue.capacity ∧
        q1.is_lock_free = wrapQueue.is_lock_free ∧
        ∀ i, i ≠ wrapQueue.tail → cells1[i]? = [5, 10, 20, 0][i]? :=
  ⟨⟨rfl, rfl⟩, by decide, rfl, by decide, by decide,
    Enqueue_success_postcondition 0 [] wrapQueue [5, 10, 20, 0] 30 ⟨rfl, rfl⟩ (by decide) rfl
      (by decide) (by decide)⟩

/-- Instance of C3 on `wrapQueue`: the value 10 at head 1 is delivered. -/
theorem Dequeue_success_postcondition_witness :
    wrapQueue.Allocated [5, 10, 20, 0] ∧ wrapQueue.capacity < UINT32_MOD ∧
      wrapQueue.is_lock_free = false ∧ wrapQueue.head < wrapQueue.capacity ∧
      wrapQueue.IsEmpty = false ∧
      ∃ x q1, wrapQueue.Dequeue 0 [] 0 = .ok (true, x, q1) ∧
        [5, 10, 20, 0][wrapQueue.head]? = some x ∧
        q1.head = (wrapQueue.head + 1) % wrapQueue.capacity ∧
        q1.tail = wrapQueue.tail ∧ q1.capacity = wrapQueue.capacity ∧
        q1.is_lock_free = wrapQueue.is_lock_free ∧
        q1.data = wrapQueue.data :=
  ⟨⟨rfl, rfl⟩, by decide, rfl, by decide, by decide,
    Dequeue_success_postcondition 0 [] wrapQueue [5, 10, 20, 0] 0 ⟨rfl, rfl⟩ (by decide) rfl
      (by decide) (by decide)⟩

/-- Instance of C4 on `wrapQueue`, which is not full: `Enqueue(30)` does not
return false. -/
theorem Enqueue_false_iff_full_witness :
    1 ≤ wrapQueue.capacity ∧ wrapQueue.tail + 1 < UINT32_MOD ∧
      ((∃ q1, wrapQueue.Enqueue 0 [] 30 = .ok (false, q1)) ↔ wrapQueue.IsFull = .ok true) ∧
      ((∃ q1, wrapQueue.Enqueue 0 [] 30 = .ok (false, q1)) ↔
        (wrapQueue.tail + 1) % UINT32_MOD % wrapQueue.capacity = wrapQueue.head) ∧
      ((∃ q1, wrapQueue.Enqueue 0 [] 30 = .ok (false, q1)) ↔
        (wrapQueue.tail + 1) % wrapQueue.capacity = wrapQueue.head) ∧
      ∀ q1, wrapQueue.Enqueue 0 [] 30 = .ok (false, q1) → q1 = wrapQueue :=
  ⟨by decide, by decide, (Enqueue_false_iff_full 0 [] wrapQueue 30 (by decide)).1,
    (Enqueue_false_iff_full 0 [] wrapQueue 30 (by decide)).2.1,
    (Enqueue_false_iff_full 0 [] wrapQueue 30 (by decide)).2.2.1 (by decide),
    (Enqueue_false_iff_full 0 [] wrapQueue 30 (by decide)).2.2.2⟩

/-- Instance of C7 at `N = 10`, plain mode. -/
theorem construct_capacity_and_storage_witness :
    10 < UINT32_MOD ∧
      ((construct 10 false : RingBufferQueue Int).GetCapacity = 10 ∧
        (construct 10 false : RingBufferQueue Int).data.size = (10 + 1) % UINT32_MOD ∧
        (construct 10 false : RingBufferQueue Int).capacity = (10 + 1) % UINT32_MOD) :=
  ⟨by decide, construct_capacity_and_storage 10 false (by decide)⟩

/-- C8 as written fails at `N = 2^32 - 1`: the capacity field wraps to 0, no
array is allocated, and `IsFull()` divides by zero instead of answering false. -/
theorem construct_IsFull_fails_at_max_capacity :
    0 < 4294967295 ∧ 4294967295 < UINT32_MOD ∧
      (construct 4294967295 false : RingBufferQueue Int).capacity = 0 ∧
      (construct 4294967295 false : RingBufferQueue Int).IsFull = .error .divByZero ∧
      (construct 4294967295 false : RingBufferQueue Int).IsFull ≠ .ok false := by
  decide

/-- Instance of C8 (amended) at `N = 10`, plain mode. -/
theorem construct_fresh_witness :
    0 < 10 ∧ 10 + 1 < UINT32_MOD ∧
      (construct 10 false : RingBufferQueue Int).head = 0 ∧
      (construct 10 false : RingBufferQueue Int).tail = 0 ∧
      (construct 10 false : RingBufferQueue Int).IsEmpty = true ∧
      (construct 10 false : RingBufferQueue Int).IsFull = .ok false :=
  ⟨by decide, by decide, (construct_fresh 10 false).1, (construct_fresh 10 false).2.1,
    (construct_fresh 10 false).2.2.1,
    (construct_fresh 10 false).2.2.2 (by decide) (by decide)⟩


/-! ### Successful calls in closed form, both modes -/

theorem not_full_iff (q : RingBufferQueue T) (ht : q.tail < q.capacity)
    (h32 : q.capacity < UINT32_MOD) :
    q.IsFull = .ok false ↔ (q.tail + 1) % q.capacity ≠ q.head := by
  rw [IsFull_of_pos q (by omega), uint32_succ_mod q.tail q.capacity ht h32]
  simp

theorem Enqueue_of_not_full (fuel : Nat) (weak : List Bool) (q : RingBufferQueue T)
    (cells : List T) (v : T) (halloc : q.Allocated cells) (h32 : q.capacity < UINT32_MOD)
    (hh : q.head < q.capacity) (ht : q.tail < q.capacity) (hnf : q.IsFull = .ok false)
    (hcas : q.is_lock_free = true → 2 ≤ fuel ∧ weak.headD false = false) :
    q.Enqueue fuel weak v =
      .ok (true, { q with data := Storage.array (cells.set q.tail v),
                          tail := (q.tail + 1) % q.capacity }) := by
  obtain ⟨hdata, hlen⟩ := halloc
  have hc : q.capacity ≠ 0 := by omega
  have hw : q.tail < cells.length := by omega
  have hne := (not_full_iff q ht h32).1 hnf
  have hsucc := uint32_succ_mod q.tail q.capacity ht h32
  cases hm : q.is_lock_free
  · simp [Enqueue, hnf, hm, EnqueueNoLockFree, hdata, Storage.write, hw, hc, hsucc]
  · obtain ⟨hfuel, hweak⟩ := hcas hm
    obtain ⟨f, rfl⟩ : ∃ f, fuel = f + 2 := ⟨fuel - 2, by omega⟩
    have hmove : (q.tail + 1) % q.capacity ≠ q.tail := by
      rw [succ_mod_cases q.tail q.capacity ht]
      rw [succ_mod_cases q.tail q.capacity ht] at hne
      split_ifs at hne ⊢ <;> omega
    simp only [Enqueue, hnf, hm, EnqueueLockFree, if_true]
    rw [EnqueueLockFreeLoop_succ v _ _ _ _ hc]
    simp only [hweak, and_self, if_true, hdata, Storage.write, if_pos hw]
    rw [EnqueueLockFreeLoop_succ v f weak.tail
      { q with tail := (q.tail + 1) % UINT32_MOD % q.capacity,
               data := Storage.array (cells.set q.tail v) } q.tail hc]
    simp [hsucc, hmove, hm]

theorem Dequeue_of_not_empty (fuel : Nat) (weak : List Bool) (q : RingBufferQueue T)
    (cells : List T) (result : T) (halloc : q.Allocated cells) (h32 : q.capacity < UINT32_MOD)
    (hh : q.head < q.capacity) (ht : q.tail < q.capacity) (hne : q.IsEmpty = false)
    (hcas : q.is_lock_free = true → 2 ≤ fuel ∧ weak.headD false = false) :
    ∃ x, cells[q.head]? = some x ∧
      q.Dequeue fuel weak result =
        .ok (true, x, { q with head := (q.head + 1) % q.capacity }) := by
  obtain ⟨hdata, hlen⟩ := halloc
  have hc : q.capacity ≠ 0 := by omega
  have hr : q.head < cells.length := by omega
  have hsucc := uint32_succ_mod q.head q.capacity hh h32
  have hdiff : q.head ≠ q.tail := by simpa [IsEmpty] using hne
  refine ⟨cells[q.head], by simp [hr], ?_⟩
  cases hm : q.is_lock_free
  · simp [Dequeue, hne, hm, DequeueNoLockFree, hdata, Storage.read, hr, hc, hsucc]
  · obtain ⟨hfuel, hweak⟩ := hcas hm
    obtain ⟨f, rfl⟩ : ∃ f, fuel = f + 2 := ⟨fuel - 2, by omega⟩
    have hmove : (q.head + 1) % q.capacity ≠ q.head := by
      rw [succ_mod_cases q.head q.capacity hh]
      split_ifs <;> omega
    simp only [Dequeue, hne, hm, DequeueLockFree, if_true]
    rw [DequeueLockFreeLoop_succ _ _ _ _ _ hc]
    simp only [hweak, and_self, if_true, hdata, Storage.read, List.getElem?_eq_getElem hr]
    rw [DequeueLockFreeLoop_succ f weak.tail
      { q with head := (q.head + 1) % UINT32_MOD % q.capacity, data := Storage.array cells }
      q.head cells[q.head] hc]
    simp [hsucc, hmove, hdata, hm]


/-! ### The invariant of reachable states -/

theorem construct_inv [Inhabited T] (N : Nat) (lock_free : Bool) (hN : N + 1 < UINT32_MOD) :
    Inv N lock_free (construct N lock_free : RingBufferQueue T) := by
  have hcap : (construct N lock_free : RingBufferQueue T).capacity = N + 1 := by
    simp [construct, Nat.mod_eq_of_lt hN]
  refine ⟨hcap, rfl, ?_, ?_, List.replicate (N + 1) default, ?_, ?_⟩
  · rw [hcap]; exact Nat.succ_pos N
  · rw [hcap]; exact Nat.succ_pos N
  · simp [construct, Nat.mod_eq_of_lt hN, Storage.new]
  · simp [hcap]

theorem EnqueueLockFreeLoop_inv (v : T) (N : Nat) (lock_free : Bool) :
    ∀ (fuel : Nat) (weak : List Bool) (q : RingBufferQueue T) (tail_cur : Nat)
      (q1 : RingBufferQueue T), Inv N lock_free q → tail_cur < q.capacity →
      EnqueueLockFreeLoop v fuel weak q tail_cur = .ok q1 → Inv N lock_free q1 := by
  intro fuel
  induction fuel with
  | zero => intro weak q tail_cur q1 _ _ h; simp [EnqueueLockFreeLoop] at h
  | succ fuel ih =>
    intro weak q tail_cur q1 hinv hcur h
    have hc : q.capacity ≠ 0 := by have := hinv.head_lt; omega
    rw [EnqueueLockFreeLoop_succ v fuel weak q tail_cur hc] at h
    split_ifs at h with hcas
    · obtain ⟨cells, hdata, hlen⟩ := hinv.allocated
      have hw : tail_cur < cells.length := by omega
      simp only [hdata, Storage.write, if_pos hw] at h
      refine ih weak.tail
        { q with tail := (tail_cur + 1) % UINT32_MOD % q.capacity,
                 data := Storage.array (cells.set tail_cur v) } tail_cur q1
        ⟨hinv.capacity_eq, hinv.mode_eq, hinv.head_lt, ?_, cells.set tail_cur v, rfl, ?_⟩ hcur h
      · exact Nat.mod_lt _ (by omega)
      · simp [hlen]
    · cases h; exact hinv

theorem DequeueLockFreeLoop_inv (N : Nat) (lock_free : Bool) :
    ∀ (fuel : Nat) (weak : List Bool) (q : RingBufferQueue T) (head_cur : Nat)
      (result r1 : T) (q1 : RingBufferQueue T), Inv N lock_free q →
      DequeueLockFreeLoop fuel weak q head_cur result = .ok (r1, q1) → Inv N lock_free q1 := by
  intro fuel
  induction fuel with
  | zero => intro weak q head_cur result r1 q1 _ h; simp [DequeueLockFreeLoop] at h
  | succ fuel ih =>
    intro weak q head_cur result r1 q1 hinv h
    have hc : q.capacity ≠ 0 := by have := hinv.head_lt; omega
    rw [DequeueLockFreeLoop_succ fuel weak q head_cur result hc] at h
    split_ifs at h with hcas
    · split at h
      · cases h
      · next x _ =>
        refine ih weak.tail { q with head := (head_cur + 1) % UINT32_MOD % q.capacity }
          head_cur x r1 q1 ⟨hinv.capacity_eq, hinv.mode_eq, ?_, hinv.tail_lt, hinv.allocated⟩ h
        exact Nat.mod_lt _ (by omega)
    · cases h; exact hinv

theorem Enqueue_inv (N : Nat) (lock_free : Bool) (fuel : Nat) (weak : List Bool)
    (q q1 : RingBufferQueue T) (v : T) (b : Bool) (hinv : Inv N lock_free q)
    (h : q.Enqueue fuel weak v = .ok (b, q1)) : Inv N lock_free q1 := by
  have hc : q.capacity ≠ 0 := by have := hinv.head_lt; omega
  unfold Enqueue at h
  split at h
  · cases h
  · cases h; exact hinv
  · split at h
    · split at h
      · cases h
      · next q2 hq2 =>
        cases h
        exact EnqueueLockFreeLoop_inv v N lock_free fuel weak q q.tail _ hinv hinv.tail_lt hq2
    · obtain ⟨cells, hdata, hlen⟩ := hinv.allocated
      have hw : q.tail < cells.length := by have := hinv.tail_lt; omega
      simp only [EnqueueNoLockFree, hdata, Storage.write, if_pos hw, if_neg hc] at h
      cases h
      exact ⟨hinv.capacity_eq, hinv.mode_eq, hinv.head_lt, Nat.mod_lt _ (by simpa using Nat.pos_of_ne_zero hc),
        cells.set q.tail v, rfl, by simp [hlen]⟩

theorem Dequeue_inv (N : Nat) (lock_free : Bool) (fuel : Nat) (weak : List Bool)
    (q q1 : RingBufferQueue T) (r r1 : T) (b : Bool) (hinv : Inv N lock_free q)
    (h : q.Dequeue fuel weak r = .ok (b, r1, q1)) : Inv N lock_free q1 := by
  have hc : q.capacity ≠ 0 := by have := hinv.head_lt; omega
  unfold Dequeue at h
  split at h
  · cases h; exact hinv
  · split at h
    · split at h
      · cases h
      · next r2 q2 hq2 =>
        cases h
        exact DequeueLockFreeLoop_inv N lock_free fuel weak q q.head r _ _ hinv hq2
    · obtain ⟨cells, hdata, hlen⟩ := hinv.allocated
      have hr : q.head < cells.length := by have := hinv.head_lt; omega
      simp only [DequeueNoLockFree, hdata, Storage.read, List.getElem?_eq_getElem hr,
        if_neg hc] at h
      cases h
      exact ⟨hinv.capacity_eq, hinv.mode_eq, Nat.mod_lt _ (by simpa using Nat.pos_of_ne_zero hc),
        hinv.tail_lt, cells, rfl, hlen⟩

theorem Reachable.inv [Inhabited T] {N : Nat} {lock_free : Bool} {q : RingBufferQueue T}
    (hN : N + 1 < UINT32_MOD) (hr : Reachable N lock_free q) : Inv N lock_free q := by
  induction hr with
  | construct _ => exact construct_inv N lock_free hN
  | enqueue fuel weak v _ h ih => exact Enqueue_inv N lock_free fuel weak _ _ v _ ih h
  | dequeue fuel weak r _ h ih => exact Dequeue_inv N lock_free fuel weak _ _ r _ _ ih h


/-! ### Distance from head to tail -/

theorem dist_eq (t h c : Nat) (hh : h < c) (ht : t < c) :
    (t + c - h) % c = if h ≤ t then t - h else t + c - h := by
  split
  · next hle =>
    have e : t + c - h = t - h + c := by omega
    rw [e, Nat.add_mod_right, Nat.mod_eq_of_lt (by omega)]
  · next hlt => exact Nat.mod_eq_of_lt (by omega)

theorem dist_succ_tail (t h c : Nat) (hh : h < c) (ht : t < c) (hnf : (t + 1) % c ≠ h) :
    ((t + 1) % c + c - h) % c = (t + c - h) % c + 1 := by
  have hlt : (t + 1) % c < c := Nat.mod_lt _ (by omega)
  rw [dist_eq _ h c hh hlt, dist_eq t h c hh ht]
  rw [succ_mod_cases t c ht] at hnf ⊢
  split_ifs at hnf ⊢ <;> omega

theorem dist_succ_head (t h c : Nat) (hh : h < c) (ht : t < c) (hne : h ≠ t) :
    (t + c - (h + 1) % c) % c + 1 = (t + c - h) % c := by
  have hlt : (h + 1) % c < c := Nat.mod_lt _ (by omega)
  rw [dist_eq t _ c hlt ht, dist_eq t h c hh ht]
  rw [succ_mod_cases h c hh]
  split_ifs <;> omega

theorem full_iff_dist (t h c : Nat) (hh : h < c) (ht : t < c) :
    (t + 1) % c = h ↔ (t + c - h) % c + 1 = c := by
  rw [dist_eq t h c hh ht, succ_mod_cases t c ht]
  split_ifs <;> omega

theorem empty_iff_dist (t h c : Nat) (hh : h < c) (ht : t < c) :
    h = t ↔ (t + c - h) % c = 0 := by
  rw [dist_eq t h c hh ht]
  split_ifs <;> omega

/-! ### The cells between head and tail -/

theorem slotsFrom_succ (cells : List T) (c i n : Nat) (hi : i < cells.length) :
    slotsFrom cells c i (n + 1) = cells[i] :: slotsFrom cells c ((i + 1) % c) n := by
  simp [slotsFrom, List.getElem?_eq_getElem hi]

theorem slotsFrom_length (cells : List T) (c : Nat) (hlen : cells.length = c) :
    ∀ (n i : Nat), i < c → (slotsFrom cells c i n).length = n := by
  intro n
  induction n with
  | zero => intro i _; rfl
  | succ n ih =>
    intro i hi
    rw [slotsFrom_succ cells c i n (by omega), List.length_cons,
      ih _ (Nat.mod_lt _ (by omega))]

theorem slotsFrom_set_append (cells : List T) (c t : Nat) (v : T) (hlen : cells.length = c)
    (ht : t < c) :
    ∀ (n i : Nat), i < c → (t + c - i) % c = n →
      slotsFrom (cells.set t v) c i (n + 1) = slotsFrom cells c i n ++ [v] := by
  intro n
  induction n with
  | zero =>
    intro i hi hd
    have e : i = t := (empty_iff_dist t i c hi ht).2 hd
    subst e
    simp [slotsFrom, hlen, hi]
  | succ n ih =>
    intro i hi hd
    have hne : i ≠ t := by
      intro e
      have := (empty_iff_dist t i c hi ht).1 e
      omega
    have hstep := dist_succ_head t i c hi ht hne
    have hi1 : i < (cells.set t v).length := by simp [hlen, hi]
    rw [slotsFrom_succ (cells.set t v) c i (n + 1) hi1,
      slotsFrom_succ cells c i n (by omega),
      ih ((i + 1) % c) (Nat.mod_lt _ (by omega)) (by omega)]
    simp [List.getElem_set, Ne.symm hne]


/-! ### One successful step on a state that satisfies the invariant -/

theorem Inv.count_le {N : Nat} {lock_free : Bool} {q : RingBufferQueue T}
    (hinv : Inv N lock_free q) : q.count ≤ N := by
  have hpos : 0 < q.capacity := by have := hinv.head_lt; omega
  have h := Nat.mod_lt (q.tail + q.capacity - q.head) hpos
  have hc := hinv.capacity_eq
  unfold count
  omega

theorem Inv.contents_length {N : Nat} {lock_free : Bool} {q : RingBufferQueue T}
    (hinv : Inv N lock_free q) : q.contents.length = q.count := by
  obtain ⟨cells, hdata, hlen⟩ := hinv.allocated
  simp only [contents, hdata]
  exact slotsFrom_length cells q.capacity hlen _ _ hinv.head_lt

theorem Inv.IsFull_eq {N : Nat} {lock_free : Bool} {q : RingBufferQueue T}
    (hN : N + 1 < UINT32_MOD) (hinv : Inv N lock_free q) :
    q.IsFull = .ok (decide (q.count = N)) := by
  have hc := hinv.capacity_eq
  rw [IsFull_of_pos q (by omega),
    uint32_succ_mod q.tail q.capacity hinv.tail_lt (by omega)]
  have h := full_iff_dist q.tail q.head q.capacity hinv.head_lt hinv.tail_lt
  have e : ((q.tail + 1) % q.capacity = q.head) = (q.count = N) := by
    apply propext
    rw [h]
    unfold count
    omega
  simp only [e]

theorem Inv.IsEmpty_eq {N : Nat} {lock_free : Bool} {q : RingBufferQueue T}
    (hinv : Inv N lock_free q) : q.IsEmpty = decide (q.count = 0) := by
  have h := empty_iff_dist q.tail q.head q.capacity hinv.head_lt hinv.tail_lt
  unfold IsEmpty count
  simp only [h]

theorem Enqueue_step (N : Nat) (lock_free : Bool) (fuel : Nat) (weak : List Bool)
    (q : RingBufferQueue T) (v : T) (hN : N + 1 < UINT32_MOD) (hinv : Inv N lock_free q)
    (hroom : q.count < N)
    (hcas : lock_free = true → 2 ≤ fuel ∧ weak.headD false = false) :
    ∃ q1, q.Enqueue fuel weak v = .ok (true, q1) ∧ Inv N lock_free q1 ∧
      q1.contents = q.contents ++ [v] ∧ q1.count = q.count + 1 ∧
      q1.head = q.head ∧ q1.tail = (q.tail + 1) % q.capacity := by
  obtain ⟨cells, hdata, hlen⟩ := hinv.allocated
  have hc := hinv.capacity_eq
  have hnf : q.IsFull = .ok false := by
    rw [hinv.IsFull_eq hN]
    simp [Nat.ne_of_lt hroom]
  have hne := (not_full_iff q hinv.tail_lt (by omega)).1 hnf
  have heq := Enqueue_of_not_full fuel weak q cells v ⟨hdata, hlen⟩ (by omega) hinv.head_lt
    hinv.tail_lt hnf (by rw [hinv.mode_eq]; exact hcas)
  have hcount := dist_succ_tail q.tail q.head q.capacity hinv.head_lt hinv.tail_lt hne
  refine ⟨_, heq, Enqueue_inv N lock_free fuel weak q _ v true hinv heq, ?_, hcount, rfl, rfl⟩
  simp only [contents, hdata, count]
  rw [hcount]
  exact slotsFrom_set_append cells q.capacity q.tail v hlen hinv.tail_lt _ q.head hinv.head_lt rfl

theorem Dequeue_step (N : Nat) (lock_free : Bool) (fuel : Nat) (weak : List Bool)
    (q : RingBufferQueue T) (r : T) (hN : N + 1 < UINT32_MOD) (hinv : Inv N lock_free q)
    (hsome : 0 < q.count)
    (hcas : lock_free = true → 2 ≤ fuel ∧ weak.headD false = false) :
    ∃ x q1, q.Dequeue fuel weak r = .ok (true, x, q1) ∧ Inv N lock_free q1 ∧
      q.contents = x :: q1.contents ∧ q1.count + 1 = q.count ∧
      q1.tail = q.tail ∧ q1.head = (q.head + 1) % q.capacity := by
  obtain ⟨cells, hdata, hlen⟩ := hinv.allocated
  have hc := hinv.capacity_eq
  have hne : q.IsEmpty = false := by
    rw [hinv.IsEmpty_eq]
    simp [Nat.ne_of_gt hsome]
  have hdiff : q.head ≠ q.tail := by simpa [IsEmpty] using hne
  obtain ⟨x, hx, heq⟩ := Dequeue_of_not_empty fuel weak q cells r ⟨hdata, hlen⟩ (by omega)
    hinv.head_lt hinv.tail_lt hne (by rw [hinv.mode_eq]; exact hcas)
  have hcount := dist_succ_head q.tail q.head q.capacity hinv.head_lt hinv.tail_lt hdiff
  refine ⟨x, _, heq, Dequeue_inv N lock_free fuel weak q _ r x true hinv heq, ?_, hcount, rfl,
    rfl⟩
  have hr : q.head < cells.length := by have := hinv.head_lt; omega
  have hx1 : cells[q.head] = x := by
    rw [List.getElem?_eq_getElem hr] at hx
    exact Option.some.inj hx
  simp only [contents, hdata, count]
  rw [← hcount, slotsFrom_succ cells q.capacity q.head _ hr, hx1]


/-! ### Runs of calls -/

theorem enqueueAll_spec (N : Nat) (lock_free : Bool) (fuel : Nat) (weak : List Bool)
    (hN : N + 1 < UINT32_MOD)
    (hcas : lock_free = true → 2 ≤ fuel ∧ weak.headD false = false) :
    ∀ (es : List T) (q : RingBufferQueue T), Inv N lock_free q → q.count + es.length ≤ N →
      ∃ q1, enqueueAll fuel weak q es = .ok (List.replicate es.length true, q1) ∧
        Inv N lock_free q1 ∧ q1.contents = q.contents ++ es ∧
        q1.count = q.count + es.length := by
  intro es
  induction es with
  | nil => intro q hinv _; exact ⟨q, rfl, hinv, by simp, by simp⟩
  | cons v vs ih =>
    intro q hinv hroom
    simp only [List.length_cons] at hroom
    obtain ⟨q1, h1, hinv1, hc1, hn1, -, -⟩ :=
      Enqueue_step N lock_free fuel weak q v hN hinv (by omega) hcas
    obtain ⟨q2, h2, hinv2, hc2, hn2⟩ := ih q1 hinv1 (by omega)
    refine ⟨q2, ?_, hinv2, ?_, ?_⟩
    · simp [enqueueAll, h1, h2, List.replicate_succ]
    · rw [hc2, hc1]; simp
    · rw [hn2, hn1, List.length_cons]; omega

theorem dequeueN_spec (N : Nat) (lock_free : Bool) (fuel : Nat) (weak : List Bool) (r0 : T)
    (hN : N + 1 < UINT32_MOD)
    (hcas : lock_free = true → 2 ≤ fuel ∧ weak.headD false = false) :
    ∀ (n : Nat) (q : RingBufferQueue T), Inv N lock_free q → q.count = n →
      ∃ q2, dequeueN fuel weak r0 q n = .ok (q.contents.map (fun x => (true, x)), q2) ∧
        Inv N lock_free q2 ∧ q2.count = 0 := by
  intro n
  induction n with
  | zero =>
    intro q hinv hn
    have hl := hinv.contents_length
    rw [hn] at hl
    refine ⟨q, ?_, hinv, hn⟩
    simp [dequeueN, List.length_eq_zero.1 hl]
  | succ n ih =>
    intro q hinv hn
    obtain ⟨x, q1, h1, hinv1, hc1, hn1, -, -⟩ :=
      Dequeue_step N lock_free fuel weak q r0 hN hinv (by omega) hcas
    obtain ⟨q2, h2, hinv2, hz⟩ := ih q1 hinv1 (by omega)
    refine ⟨q2, ?_, hinv2, hz⟩
    simp [dequeueN, h1, h2, hc1]

theorem Reachable.arg_lt [Inhabited T] {N : Nat} {lock_free : Bool} {q : RingBufferQueue T}
    (hr : Reachable N lock_free q) : N < UINT32_MOD := by
  induction hr with
  | construct h => exact h
  | enqueue _ _ _ _ _ ih => exact ih
  | dequeue _ _ _ _ _ ih => exact ih

theorem Reachable.eq_construct_of_wrap [Inhabited T] {N : Nat} {lock_free : Bool}
    {q : RingBufferQueue T} (hN : N + 1 = UINT32_MOD) (hr : Reachable N lock_free q) :
    q = RingBufferQueue.construct N lock_free := by
  have hcap : (RingBufferQueue.construct N lock_free : RingBufferQueue T).capacity = 0 := by
    simp [RingBufferQueue.construct, hN]
  induction hr with
  | construct _ => rfl
  | enqueue fuel weak v _ h ih =>
    rw [ih] at h
    simp [Enqueue, IsFull, hcap] at h
  | dequeue fuel weak r _ h ih =>
    rw [ih] at h
    have he : (RingBufferQueue.construct N lock_free : RingBufferQueue T).IsEmpty = true := by
      simp [IsEmpty, RingBufferQueue.construct]
    simp only [Dequeue, he, if_true] at h
    cases h
    rfl

theorem Inv.freeSpace_eq {N : Nat} {lock_free : Bool} {q : RingBufferQueue T}
    (hinv : Inv N lock_free q) : q.freeSpace = N - q.count := by
  obtain ⟨cells, hdata, hlen⟩ := hinv.allocated
  have hc := hinv.capacity_eq
  simp only [freeSpace, hdata, Storage.size]
  omega

/-- C1, with the free space counted in slots of the owned storage
(`size - 1 - length(c)`: this is `N - length(c)` when `N + 1 < 2^32`, and 0 for
the queue built with `N = 2^32 - 1`, which owns no storage). For every
plain-mode state reachable from `RingBufferQueue(N)` by `Enqueue`/`Dequeue`,
with logical contents `c`, and every list `e1..ek` with `k` no larger than
that free space: the `k` calls of `Enqueue` all return true, the next
`length(c) + k` calls of `Dequeue` all return true and deliver `c` followed by
`e1..ek` in order, and the queue is then empty. -/
theorem fifo_order [Inhabited T] (N : Nat) (q : RingBufferQueue T) (es : List T) (r0 : T)
    (fuel : Nat) (weak : List Bool)
    (hreach : Reachable N false q) (hfree : es.length ≤ q.freeSpace) :
    ∃ q1 q2, enqueueAll fuel weak q es = .ok (List.replicate es.length true, q1) ∧
      dequeueN fuel weak r0 q1 (q.contents.length + es.length) =
        .ok ((q.contents ++ es).map (fun x => (true, x)), q2) ∧
      q2.IsEmpty = true := by
  have hlt := hreach.arg_lt
  by_cases hN : N + 1 < UINT32_MOD
  · have hinv := hreach.inv hN
    have hcas : false = true → 2 ≤ fuel ∧ weak.headD false = false := by intro h; cases h
    have hl := hinv.contents_length
    have hle := hinv.count_le
    rw [hinv.freeSpace_eq] at hfree
    obtain ⟨q1, h1, hinv1, hc1, hn1⟩ :=
      enqueueAll_spec N false fuel weak hN hcas es q hinv (by omega)
    obtain ⟨q2, h2, hinv2, hz⟩ :=
      dequeueN_spec N false fuel weak r0 hN hcas (q.contents.length + es.length) q1 hinv1
        (by omega)
    refine ⟨q1, q2, h1, ?_, ?_⟩
    · rw [h2, hc1]
    · rw [hinv2.IsEmpty_eq, hz]; rfl
  · have hq := hreach.eq_construct_of_wrap (by omega)
    subst hq
    have hw : (N + 1) % UINT32_MOD = 0 := by
      have e : N + 1 = UINT32_MOD := by omega
      rw [e, Nat.mod_self]
    have hes : es = [] := by
      simp [freeSpace, construct, hw, Storage.size] at hfree
      exact hfree
    subst hes
    refine ⟨construct N false, construct N false, rfl, ?_, ?_⟩
    · simp [contents, construct, hw, dequeueN]
    · simp [IsEmpty, construct]

theorem Reachable.enqueueAll [Inhabited T] {N : Nat} {lock_free : Bool} (fuel : Nat)
    (weak : List Bool) :
    ∀ (es : List T) (q q1 : RingBufferQueue T) (bs : List Bool), Reachable N lock_free q →
      RingBufferQueue.enqueueAll fuel weak q es = .ok (bs, q1) → Reachable N lock_free q1 := by
  intro es
  induction es with
  | nil =>
    intro q q1 bs hr h
    simp only [RingBufferQueue.enqueueAll] at h
    cases h
    exact hr
  | cons v vs ih =>
    intro q q1 bs hr h
    simp only [RingBufferQueue.enqueueAll] at h
    split at h
    · cases h
    · next b q2 h2 =>
      split at h
      · cases h
      · next bs2 q3 h3 =>
        cases h
        exact ih q2 _ bs2 (Reachable.enqueue fuel weak v hr h2) h3

theorem Reachable.dequeueN [Inhabited T] {N : Nat} {lock_free : Bool} (fuel : Nat)
    (weak : List Bool) (r0 : T) :
    ∀ (n : Nat) (q q1 : RingBufferQueue T) (rs : List (Bool × T)), Reachable N lock_free q →
      RingBufferQueue.dequeueN fuel weak r0 q n = .ok (rs, q1) → Reachable N lock_free q1 := by
  intro n
  induction n with
  | zero =>
    intro q q1 rs hr h
    simp only [RingBufferQueue.dequeueN] at h
    cases h
    exact hr
  | succ n ih =>
    intro q q1 rs hr h
    simp only [RingBufferQueue.dequeueN] at h
    split at h
    · cases h
    · next b r q2 h2 =>
      split at h
      · cases h
      · next rs2 q3 h3 =>
        cases h
        exact ih q2 _ rs2 (Reachable.dequeue fuel weak r0 hr h2) h3

theorem wrapQueue_reachable : Reachable 3 false wrapQueue := by
  have h0 : Reachable 3 false (construct 3 false : RingBufferQueue Int) :=
    Reachable.construct (by decide)
  have h1 := Reachable.enqueueAll 0 [] [5, 10, 20] (construct 3 false : RingBufferQueue Int)
    { is_lock_free := false, capacity := 4, head := 0, tail := 3,
      data := Storage.array [5, 10, 20, 0] } [true, true, true] h0 (by decide)
  exact Reachable.dequeueN 0 [] 0 1 _ wrapQueue [(true, 5)] h1 (by decide)

/-- Instance of C1 (amended) on `wrapQueue`, which holds 10, 20 with one free
slot: `Enqueue(30)` wraps the tail, and three calls of `Dequeue` deliver 10,
20, 30. -/
theorem fifo_order_witness :
    Reachable 3 false wrapQueue ∧ [(30 : Int)].length ≤ wrapQueue.freeSpace ∧
      ∃ q1 q2, enqueueAll 0 [] wrapQueue [30] = .ok (List.replicate [(30 : Int)].length true, q1) ∧
        dequeueN 0 [] 0 q1 (wrapQueue.contents.length + [(30 : Int)].length) =
          .ok ((wrapQueue.contents ++ [30]).map (fun x => (true, x)), q2) ∧
        q2.IsEmpty = true :=
  ⟨wrapQueue_reachable, by decide,
    fifo_order 3 wrapQueue [30] 0 0 [] wrapQueue_reachable (by decide)⟩

/-- C1 fails when the free space is the reported capacity less the stored
elements. The queue built with `N = 2^32 - 1` is reachable, reports capacity
`N` and holds nothing, yet the first `Enqueue` divides by zero in `IsFull` (the
capacity field has wrapped to 0). -/
theorem fifo_order_fails_at_max_capacity :
    Reachable 4294967295 false (construct 4294967295 false : RingBufferQueue Int) ∧
      (construct 4294967295 false : RingBufferQueue Int).contents = [] ∧
      [(7 : Int)].length ≤
        (construct 4294967295 false : RingBufferQueue Int).GetCapacity -
          (construct 4294967295 false : RingBufferQueue Int).contents.length ∧
      enqueueAll 0 [] (construct 4294967295 false : RingBufferQueue Int) [7] =
        .error .divByZero :=
  ⟨Reachable.construct (by decide), by decide, by decide, by decide⟩


/-! ### Filling a fresh queue -/

theorem construct_count [Inhabited T] (N : Nat) (lock_free : Bool) :
    (construct N lock_free : RingBufferQueue T).count = 0 := by
  simp [count, construct]

/-- C6. For every `N` with `N + 1 < 2^32` and every list of `N` values, on
the fresh plain-mode queue of logical capacity `N`: for each `i < N` the first
`i` calls of `Enqueue` return true and `IsFull()` is then false (so it is false
before each of the `N` calls); all `N` calls return true and `IsFull()` is then
true; and one more `Enqueue` returns false and leaves the state as it was. -/
theorem fill_to_capacity [Inhabited T] (N : Nat) (vs : List T) (fuel : Nat)
    (weak : List Bool) (hN : N + 1 < UINT32_MOD) (hlen : vs.length = N) :
    (∀ i, i < N → ∃ qi, enqueueAll fuel weak (construct N false) (vs.take i) =
        .ok (List.replicate i true, qi) ∧ qi.IsFull = .ok false) ∧
      ∃ qN, enqueueAll fuel weak (construct N false) vs = .ok (List.replicate N true, qN) ∧
        qN.IsFull = .ok true ∧ ∀ v, qN.Enqueue fuel weak v = .ok (false, qN) := by
  have hinv := construct_inv (T := T) N false hN
  have hzero := construct_count (T := T) N false
  have hcas : false = true → 2 ≤ fuel ∧ weak.headD false = false := by intro h; cases h
  constructor
  · intro i hi
    have hl : (vs.take i).length = i := by rw [List.length_take]; omega
    obtain ⟨qi, h1, hinvi, -, hn⟩ :=
      enqueueAll_spec N false fuel weak hN hcas (vs.take i) _ hinv (by omega)
    rw [hl] at h1
    refine ⟨qi, h1, ?_⟩
    rw [hinvi.IsFull_eq hN, hn, hzero, hl]
    simp [Nat.ne_of_lt hi]
  · obtain ⟨qN, h1, hinvN, -, hn⟩ :=
      enqueueAll_spec N false fuel weak hN hcas vs _ hinv (by omega)
    rw [hlen] at h1
    have hfull : qN.IsFull = .ok true := by
      rw [hinvN.IsFull_eq hN, hn, hzero, hlen]
      simp
    refine ⟨qN, h1, hfull, ?_⟩
    intro v
    simp [Enqueue, hfull]

/-- Instance of C6 at `N = 3` with the values 0, 2, 4. -/
theorem fill_to_capacity_witness :
    3 + 1 < UINT32_MOD ∧ [(0 : Int), 2, 4].length = 3 ∧
      ((∀ i, i < 3 → ∃ qi, enqueueAll 0 [] (construct 3 false) ([(0 : Int), 2, 4].take i) =
          .ok (List.replicate i true, qi) ∧ qi.IsFull = .ok false) ∧
        ∃ qN, enqueueAll 0 [] (construct 3 false) [(0 : Int), 2, 4] =
            .ok (List.replicate 3 true, qN) ∧
          qN.IsFull = .ok true ∧ ∀ v, qN.Enqueue 0 [] v = .ok (false, qN)) :=
  ⟨by decide, by decide, fill_to_capacity 3 [0, 2, 4] 0 [] (by decide) (by decide)⟩

/-! ### Round trips on an empty queue -/

theorem roundTrips_spec (N : Nat) (lock_free : Bool) (fuel : Nat) (weak : List Bool) (r0 : T)
    (hN1 : 1 ≤ N) (hN : N + 1 < UINT32_MOD)
    (hcas : lock_free = true → 2 ≤ fuel ∧ weak.headD false = false) :
    ∀ (vs : List T) (q : RingBufferQueue T), Inv N lock_free q → q.count = 0 →
      ∃ q3, roundTrips fuel weak r0 q vs = .ok (vs.map (fun v => (true, true, v)), q3) ∧
        Inv N lock_free q3 ∧ q3.count = 0 ∧
        q3.head = (q.head + vs.length) % q.capacity ∧
        q3.tail = (q.tail + vs.length) % q.capacity := by
  intro vs
  induction vs with
  | nil =>
    intro q hinv hz
    exact ⟨q, rfl, hinv, hz, (Nat.mod_eq_of_lt hinv.head_lt).symm,
      (Nat.mod_eq_of_lt hinv.tail_lt).symm⟩
  | cons v vs ih =>
    intro q hinv hz
    obtain ⟨q1, h1, hinv1, hc1, hn1, hh1, ht1⟩ :=
      Enqueue_step N lock_free fuel weak q v hN hinv (by omega) hcas
    obtain ⟨x, q2, h2, hinv2, hc2, hn2, ht2, hh2⟩ :=
      Dequeue_step N lock_free fuel weak q1 r0 hN hinv1 (by omega) hcas
    have hnil : q.contents = [] := List.length_eq_zero.1 (by rw [hinv.contents_length, hz])
    have hnil2 : q2.contents = [] :=
      List.length_eq_zero.1 (by rw [hinv2.contents_length]; omega)
    have hx : x = v := by
      rw [hc1, hnil, hnil2] at hc2
      simpa using hc2.symm
    subst hx
    obtain ⟨q3, h3, hinv3, hz3, hh3, ht3⟩ := ih q2 hinv2 (by omega)
    have hcap1 : q1.capacity = q.capacity := by rw [hinv1.capacity_eq, hinv.capacity_eq]
    have hcap2 : q2.capacity = q.capacity := by rw [hinv2.capacity_eq, hinv.capacity_eq]
    refine ⟨q3, ?_, hinv3, hz3, ?_, ?_⟩
    · simp [roundTrips, h1, h2, h3]
    · rw [hh3, hh2, hh1, hcap1, hcap2, Nat.mod_add_mod, List.length_cons]
      congr 1
      omega
    · rw [ht3, ht2, ht1, hcap2, Nat.mod_add_mod, List.length_cons]
      congr 1
      omega

/-- C9, for capacities whose successor fits 32 bits. For every reachable
empty state of a queue of logical capacity `N` with `1 <= N` and `N + 1 < 2^32`
and every list of values `v1..vn`: each pair `Enqueue(vi)`, `Dequeue` returns
true twice and delivers exactly `vi`, and after the `n` pairs the queue is
empty again with head and tail both advanced by `n` modulo capacity. In
concurrent mode this is for calls whose first CAS does not fail spuriously and
whose loop may make two attempts. -/
theorem roundTrip_on_empty [Inhabited T] (N : Nat) (lock_free : Bool) (q : RingBufferQueue T)
    (vs : List T) (r0 : T) (fuel : Nat) (weak : List Bool) (hN1 : 1 ≤ N)
    (hN : N + 1 < UINT32_MOD) (hreach : Reachable N lock_free q) (hempty : q.IsEmpty = true)
    (hcas : lock_free = true → 2 ≤ fuel ∧ weak.headD false = false) :
    ∃ q3, roundTrips fuel weak r0 q vs = .ok (vs.map (fun v => (true, true, v)), q3) ∧
      q3.IsEmpty = true ∧ q3.head = q3.tail ∧
      q3.head = (q.head + vs.length) % q.capacity ∧
      q3.tail = (q.tail + vs.length) % q.capacity := by
  have hinv := hreach.inv hN
  have hz : q.count = 0 := by
    have h := hinv.IsEmpty_eq
    rw [hempty] at h
    simpa using h.symm
  obtain ⟨q3, h3, hinv3, hz3, hh3, ht3⟩ :=
    roundTrips_spec N lock_free fuel weak r0 hN1 hN hcas vs q hinv hz
  have he : q3.IsEmpty = true := by rw [hinv3.IsEmpty_eq, hz3]; rfl
  exact ⟨q3, h3, he, by simpa [IsEmpty] using he, hh3, ht3⟩


/-- Instance of C9 (amended) in concurrent mode: four round trips on the fresh
queue of logical capacity 2, so both indices wrap. -/
theorem roundTrip_on_empty_witness :
    1 ≤ 2 ∧ 2 + 1 < UINT32_MOD ∧
      Reachable 2 true (construct 2 true : RingBufferQueue Int) ∧
      (construct 2 true : RingBufferQueue Int).IsEmpty = true ∧
      (true = true → 2 ≤ 2 ∧ ([] : List Bool).headD false = false) ∧
      ∃ q3, roundTrips 2 [] 0 (construct 2 true : RingBufferQueue Int) [7, 8, 9, 10] =
          .ok ([(7 : Int), 8, 9, 10].map (fun v => (true, true, v)), q3) ∧
        q3.IsEmpty = true ∧ q3.head = q3.tail ∧
        q3.head = ((construct 2 true : RingBufferQueue Int).head + [(7 : Int), 8, 9, 10].length) %
          (construct 2 true : RingBufferQueue Int).capacity ∧
        q3.tail = ((construct 2 true : RingBufferQueue Int).tail + [(7 : Int), 8, 9, 10].length) %
          (construct 2 true : RingBufferQueue Int).capacity :=
  ⟨by decide, by decide, Reachable.construct (by decide), by decide,
    fun _ => ⟨by decide, rfl⟩,
    roundTrip_on_empty 2 true (construct 2 true) [7, 8, 9, 10] 0 2 [] (by decide) (by decide)
      (Reachable.construct (by decide)) (by decide) (fun _ => ⟨by decide, rfl⟩)⟩

/-- C9 as written fails at logical capacity `N = 2^32 - 1 >= 1`: the fresh
queue is reachable, empty and reports capacity `N`, yet `Enqueue` divides by
zero in `IsFull` instead of returning true. -/
theorem roundTrip_fails_at_max_capacity :
    1 ≤ 4294967295 ∧
      Reachable 4294967295 false (construct 4294967295 false : RingBufferQueue Int) ∧
      (construct 4294967295 false : RingBufferQueue Int).GetCapacity = 4294967295 ∧
      (construct 4294967295 false : RingBufferQueue Int).IsEmpty = true ∧
      (construct 4294967295 false : RingBufferQueue Int).Enqueue 0 [] 7 = .error .divByZero :=
  ⟨by decide, Reachable.construct (by decide), by decide, by decide, by decide⟩

/-! ### Copying -/

theorem Storage.copy_all [Inhabited T] (cells : List T) :
    Storage.copy (Storage.array cells) cells.length (Storage.new cells.length) =
      .ok (Storage.array cells) := by
  cases cells with
  | nil => rfl
  | cons x xs => simp [Storage.copy, Storage.new]

/-- For every source `s` that owns an array of its `capacity` cells: the
copy-constructed queue has the capacity, mode, head, tail and all `capacity`
slots of `s` (and is `s` itself when `capacity > 0`); and copy assignment of
`s` to a distinct queue `d` whose `data` pointer is null or an owned array
leaves `d` equal to `s`. The source is a `const&`: the model has no way to
change it. -/
theorem copy_reproduces_source [Inhabited T] (s : RingBufferQueue T) (cells : List T)
    (halloc : s.Allocated cells) :
    (∃ c, copyConstruct s = .ok c ∧
        c.capacity = s.capacity ∧ c.is_lock_free = s.is_lock_free ∧
        c.head = s.head ∧ c.tail = s.tail ∧
        (∀ i, i < s.capacity → c.data.read i = s.data.read i) ∧
        (0 < s.capacity → c = s)) ∧
      ∀ d : RingBufferQueue T, d.data ≠ Storage.indeterminate →
        copyAssign d s false = .ok s := by
  obtain ⟨hdata, hlen⟩ := halloc
  have hcopy := Storage.copy_all cells
  rw [hlen, ← hdata] at hcopy
  constructor
  · by_cases hpos : 0 < s.capacity
    · refine ⟨s, ?_, rfl, rfl, rfl, rfl, fun _ _ => rfl, fun _ => rfl⟩
      simp [copyConstruct, hpos, hcopy]
    · refine ⟨{ is_lock_free := s.is_lock_free, capacity := s.capacity, head := s.head,
                tail := s.tail, data := Storage.indeterminate },
        by simp only [copyConstruct, if_neg hpos], rfl, rfl, rfl, rfl, ?_, ?_⟩
      · intro i hi; omega
      · intro h; omega
  · intro d hd
    have hdel : Storage.delete d.data = .ok () := by
      cases hdd : d.data with
      | null => rfl
      | indeterminate => exact absurd hdd hd
      | array _ => rfl
    simp [copyAssign, hdel, hcopy]

/-- The test of src/Test.cpp: `q4`, built with capacity 20 and then assigned
from `q3`, equals `q3` and holds 10, 12, 14, 16, 18, 0, 3, 6, 9, 12. -/
theorem copy_reproduces_source_witness :
    copyDemoSource.Allocated [3, 6, 9, 12, 8, 10, 12, 14, 16, 18, 0] ∧
      (construct 20 false : RingBufferQueue Int).data ≠ Storage.indeterminate ∧
      copyAssign (construct 20 false) copyDemoSource false = .ok copyDemoSource ∧
      copyConstruct copyDemoSource = .ok copyDemoSource ∧
      copyDemoSource.contents = [10, 12, 14, 16, 18, 0, 3, 6, 9, 12] :=
  ⟨⟨rfl, rfl⟩, by decide,
    (copy_reproduces_source copyDemoSource [3, 6, 9, 12, 8, 10, 12, 14, 16, 18, 0]
      ⟨rfl, rfl⟩).2 (construct 20 false) (by decide),
    by decide, by decide⟩


/-- C10 on the code, when the destination is itself a copy of a moved-from
queue. The copy constructor of a queue with `capacity == 0` never assigns the
member `data`; copy assignment of `q3` (which owns its storage) to that
destination starts with `delete[] data` on the unassigned pointer, which is
undefined, so the destination does not come to equal the source. -/
theorem copyAssign_onto_copy_of_moved_from :
    copyDemoSource.Allocated [3, 6, 9, 12, 8, 10, 12, 14, 16, 18, 0] ∧
      copyConstruct (moveConstruct copyDemoSource).2 = .ok copyOfMovedFrom ∧
      copyOfMovedFrom.data = Storage.indeterminate ∧
      copyAssign copyOfMovedFrom copyDemoSource false = .error .indeterminatePointer ∧
      copyAssign copyOfMovedFrom copyDemoSource false ≠ .ok copyDemoSource :=
  ⟨⟨rfl, rfl⟩, by decide, rfl, by decide, by decide⟩

/-! ### The runs of src/Test.cpp -/

/-- Capacity 10: `Enqueue` of 0..9 fills the queue, `Enqueue(10)` fails, and
ten calls of `Dequeue` deliver 0..9 and leave the queue empty. -/
theorem demo_capacity_ten :
    ∃ q1 q2, enqueueAll 0 [] (construct 10 false) [(0 : Int), 1, 2, 3, 4, 5, 6, 7, 8, 9] =
        .ok (List.replicate 10 true, q1) ∧
      q1.IsFull = .ok true ∧ q1.Enqueue 0 [] 10 = .ok (false, q1) ∧
      dequeueN 0 [] 0 q1 10 =
        .ok ([(0 : Int), 1, 2, 3, 4, 5, 6, 7, 8, 9].map (fun x => (true, x)), q2) ∧
      q2.IsEmpty = true :=
  ⟨{ is_lock_free := false, capacity := 11, head := 0, tail := 10,
     data := Storage.array [0, 1, 2, 3, 4, 5, 6, 7, 8, 9, 0] },
   { is_lock_free := false, capacity := 11, head := 10, tail := 10,
     data := Storage.array [0, 1, 2, 3, 4, 5, 6, 7, 8, 9, 0] },
   by decide, by decide, by decide, by decide, by decide⟩

set_option maxRecDepth 100000 in
/-- The full queue of 0..99, rotated five times and drained, gives 5..99 and
then 0..4. -/
theorem demo_rotation :
    TestRingBufferQueue =
      .ok ((((List.range 95).map (fun i => Int.ofNat (i + 5))) ++ [0, 1, 2, 3, 4]).map
        (fun x => (true, x))) := by
  decide


/-! ### Moving -/

/-- C11 on the code. Move construction does what the claim says: for every
source `s` the new queue is `s` as it was (capacity, mode, head, tail and
buffer) and the source is left with `capacity = 0`, `head = 0`, `tail = 0`, a
null `data` and its mode flag. Move assignment has nothing to evaluate:
`operator=(RingBufferQueue&&)` assigns `head = q.head; tail = q.tail;` between
`std::atomic` members, which selects the deleted copy assignment of
`std::atomic`, so the operator is ill-formed wherever it is instantiated and
has no definition here. -/
theorem move_construct_transfers_state (s : RingBufferQueue T) :
    moveConstruct s =
      (s, { is_lock_free := s.is_lock_free, capacity := 0, head := 0, tail := 0,
            data := Storage.null }) :=
  rfl

theorem GetCapacity_of_capacity_zero (q : RingBufferQueue T) (h : q.capacity = 0) :
    q.GetCapacity = 4294967295 := by
  unfold GetCapacity
  rw [h]
  decide

/-- After a move construction the source answers `IsEmpty()` with true, and
`GetCapacity()` returns `0 - 1` in `uint32_t`, that is 4294967295. -/
theorem moved_from_reports (q : RingBufferQueue T) :
    (moveConstruct q).2.IsEmpty = true ∧ (moveConstruct q).2.GetCapacity = 4294967295 :=
  ⟨rfl, GetCapacity_of_capacity_zero _ rfl⟩

/-- The moved-from source, like the queue built with `max_capacity = 2^32 - 1`,
has `capacity == 0` and no array; on it `IsFull()` and `Enqueue` in either mode
evaluate `(tail + 1) % capacity` with a zero modulus. -/
theorem zero_capacity_divides_by_zero (q : RingBufferQueue T) (v : T) (fuel : Nat)
    (weak : List Bool) :
    (moveConstruct q).2.capacity = 0 ∧
      (moveConstruct q).2.IsFull = .error .divByZero ∧
      (moveConstruct q).2.Enqueue fuel weak v = .error .divByZero ∧
      (construct 4294967295 false : RingBufferQueue Int).IsFull = .error .divByZero ∧
      (construct 4294967295 true : RingBufferQueue Int).Enqueue fuel weak 0 =
        .error .divByZero := by
  have hcap : (construct 4294967295 true : RingBufferQueue Int).capacity = 0 := by decide
  refine ⟨rfl, rfl, rfl, by decide, ?_⟩
  simp [Enqueue, IsFull, hcap]

/-- C12 on the code, at `q2` of `TestingCopyAssignmentFunc` (src/Test.cpp)
after `q3(std::move(q2))`: `q2.IsEmpty()` is true, but `q2.GetCapacity()`
returns 4294967295 (`0 - 1` in `uint32_t`), not 0. -/
theorem moved_from_GetCapacity_in_test :
    (moveConstruct copyDemoSource).2.capacity = 0 ∧
      (moveConstruct copyDemoSource).2.IsEmpty = true ∧
      (moveConstruct copyDemoSource).2.GetCapacity = 4294967295 ∧
      (moveConstruct copyDemoSource).2.GetCapacity ≠ 0 := by
  decide

/-- C13 on the code, at the same moved-from `q2`: `IsFull()` and `Enqueue` (in
the queue's plain mode) divide by the zero `capacity`; so does `IsFull()` on the
queue built with `max_capacity = 2^32 - 1`. `IsEmpty`, `GetCapacity` and
`Dequeue` do return. -/
theorem moved_from_IsFull_in_test :
    (moveConstruct copyDemoSource).2.IsFull = .error .divByZero ∧
      (moveConstruct copyDemoSource).2.Enqueue 2 [] 7 = .error .divByZero ∧
      (moveConstruct copyDemoSource).2.Dequeue 2 [] 0 =
        .ok (false, 0, (moveConstruct copyDemoSource).2) ∧
      (construct 4294967295 false : RingBufferQueue Int).IsFull = .error .divByZero := by
  decide

/-! ### Full and empty -/

/-- C14, for logical capacities of at least 1. For every queue built with
`1 <= N`, `N + 1 < 2^32`, in either mode, and every state reachable from it by
`Enqueue`/`Dequeue`: `IsEmpty()` and `IsFull()` are not both true, and
`head == tail` means that `IsEmpty()` is true and `IsFull()` is false. -/
theorem empty_and_full_exclusive [Inhabited T] (N : Nat) (lock_free : Bool)
    (q : RingBufferQueue T) (hN1 : 1 ≤ N) (hN : N + 1 < UINT32_MOD)
    (hreach : Reachable N lock_free q) :
    ¬ (q.IsEmpty = true ∧ q.IsFull = .ok true) ∧
      (q.head = q.tail → q.IsEmpty = true ∧ q.IsFull = .ok false) := by
  have hinv := hreach.inv hN
  have hf := hinv.IsFull_eq hN
  have he := hinv.IsEmpty_eq
  constructor
  · rintro ⟨h1, h2⟩
    rw [he] at h1
    rw [hf] at h2
    have c0 : q.count = 0 := by simpa using h1
    have cN : q.count = N := by simpa using h2
    omega
  · intro hht
    have h1 : q.IsEmpty = true := by simp [IsEmpty, hht]
    have c0 : q.count = 0 := by rw [he] at h1; simpa using h1
    refine ⟨h1, ?_⟩
    rw [hf, c0]
    have : ¬ (0 = N) := by omega
    simp [this]

/-- Instance of C14 on `wrapQueue` (logical capacity 3). -/
theorem empty_and_full_exclusive_witness :
    1 ≤ 3 ∧ 3 + 1 < UINT32_MOD ∧ Reachable 3 false wrapQueue ∧
      ¬ (wrapQueue.IsEmpty = true ∧ wrapQueue.IsFull = .ok true) ∧
      (wrapQueue.head = wrapQueue.tail →
        wrapQueue.IsEmpty = true ∧ wrapQueue.IsFull = .ok false) :=
  ⟨by decide, by decide, wrapQueue_reachable,
    empty_and_full_exclusive 3 false wrapQueue (by decide) (by decide) wrapQueue_reachable⟩

/-- C14 as written fails at `N = 0`: the fresh queue has one slot, the
separator, and `head == tail == 0` makes both `IsEmpty()` and `IsFull()` true. -/
theorem empty_and_full_at_capacity_zero :
    0 + 1 < UINT32_MOD ∧ Reachable 0 false (construct 0 false : RingBufferQueue Int) ∧
      (construct 0 false : RingBufferQueue Int).head =
        (construct 0 false : RingBufferQueue Int).tail ∧
      (construct 0 false : RingBufferQueue Int).IsEmpty = true ∧
      (construct 0 false : RingBufferQueue Int).IsFull = .ok true :=
  ⟨by decide, Reachable.construct (by decide), by decide, by decide, by decide⟩


/-! ### The CAS loops -/

theorem Enqueue_spurious (fuel : Nat) (weak : List Bool) (q : RingBufferQueue T) (v : T)
    (hnf : q.IsFull = .ok false) (hlf : q.is_lock_free = true)
    (hs : weak.headD false = true) (hfuel : 1 ≤ fuel) :
    q.Enqueue fuel weak v = .ok (true, q) := by
  have hc : q.capacity ≠ 0 := by
    intro h
    simp [IsFull, h] at hnf
  obtain ⟨f, rfl⟩ : ∃ f, fuel = f + 1 := ⟨fuel - 1, by omega⟩
  simp only [Enqueue, hnf, hlf, EnqueueLockFree, if_true]
  have hcond : ¬ (q.tail = q.tail ∧ weak.headD false = false) := by rw [hs]; simp
  rw [EnqueueLockFreeLoop_succ v f weak q q.tail hc, if_neg hcond]

theorem Dequeue_spurious (fuel : Nat) (weak : List Bool) (q : RingBufferQueue T) (r : T)
    (hc : q.capacity ≠ 0) (hne : q.IsEmpty = false) (hlf : q.is_lock_free = true)
    (hs : weak.headD false = true) (hfuel : 1 ≤ fuel) :
    q.Dequeue fuel weak r = .ok (true, r, q) := by
  obtain ⟨f, rfl⟩ : ∃ f, fuel = f + 1 := ⟨fuel - 1, by omega⟩
  simp only [Dequeue, hne, hlf, DequeueLockFree, if_true, Bool.false_eq_true, if_false]
  have hcond : ¬ (q.head = q.head ∧ weak.headD false = false) := by rw [hs]; simp
  rw [DequeueLockFreeLoop_succ f weak q q.head r hc, if_neg hcond]

/-- C17 on the code, in concurrent mode with a `compare_exchange_weak` that
fails spuriously once and would then succeed. On the fresh queue `Enqueue(5)`
returns true although tail has not advanced and nothing was stored; on the
queue holding 5, `Dequeue` returns true although head has not advanced and
`result` keeps its old value 0: the loop stops at the first failing CAS. And
after a successful CAS it goes on to a further attempt (one attempt of fuel is
not enough). -/
theorem cas_loop_stops_on_failure :
    lockFreeFresh.IsFull = .ok false ∧
      lockFreeFresh.Enqueue 3 [true, false] 5 = .ok (true, lockFreeFresh) ∧
      lockFreeHolding.IsEmpty = false ∧
      lockFreeHolding.Dequeue 3 [true, false] 0 = .ok (true, 0, lockFreeHolding) ∧
      lockFreeFresh.Enqueue 1 [] 5 = .error .outOfFuel ∧
      lockFreeFresh.Enqueue 2 [] 5 = .ok (true, lockFreeHolding) := by
  decide

theorem EnqueueLockFreeLoop_pass (val : T) (fuel : Nat) (weak : List Bool)
    (q : RingBufferQueue T) (tail_cur : Nat) :
    EnqueueLockFreeLoop val (fuel + 1) weak q tail_cur =
      match EnqueueLockFreePass val (weak.headD false) q tail_cur with
      | .error e => .error e
      | .ok (true, q1, tail_cur1) => EnqueueLockFreeLoop val fuel weak.tail q1 tail_cur1
      | .ok (false, q1, _) => .ok q1 := by
  simp only [EnqueueLockFreeLoop, EnqueueLockFreePass, compare_exchange_weak]
  split_ifs
  · rfl
  · cases hw : q.data.write tail_cur val <;> simp [hw]
  · rfl

/-- C16 on the code, on a concurrent-mode queue of two slots and this
interleaving of whole steps. Producer P1 enters `Enqueue(7)`: the queue is not
full, `tail_cur = 0`, the first pass of its loop advances tail from 0 to 1
and stores 7 in slot 0, and the loop is to go on. Before its next CAS a
consumer dequeues 7, another producer enqueues 8 (tail wraps to 0) and a
consumer dequeues 8. P1 then resumes its loop with the stale `tail_cur = 0`:
the CAS finds `tail == 0` again and succeeds, 7 is stored a second time, and a
third `Dequeue` returns true with 7. The one call `Enqueue(7)` reserved slot 0
twice and its value is delivered to two successful calls of `Dequeue`. -/
theorem enqueued_value_delivered_twice :
    sharedQueue 0 0 [0, 0] = construct 1 true ∧
      (sharedQueue 0 0 [0, 0]).IsFull = .ok false ∧
      EnqueueLockFreePass 7 false (sharedQueue 0 0 [0, 0]) 0 =
        .ok (true, sharedQueue 0 1 [7, 0], 0) ∧
      (sharedQueue 0 1 [7, 0]).Dequeue 2 [] 0 = .ok (true, 7, sharedQueue 1 1 [7, 0]) ∧
      (sharedQueue 1 1 [7, 0]).Enqueue 2 [] 8 = .ok (true, sharedQueue 1 0 [7, 8]) ∧
      (sharedQueue 1 0 [7, 8]).Dequeue 2 [] 0 = .ok (true, 8, sharedQueue 0 0 [7, 8]) ∧
      EnqueueLockFreeLoop 7 2 [] (sharedQueue 0 0 [7, 8]) 0 = .ok (sharedQueue 0 1 [7, 8]) ∧
      (sharedQueue 0 1 [7, 8]).Dequeue 2 [] 0 = .ok (true, 7, sharedQueue 1 1 [7, 8]) := by
  decide

/-! ### The two modes compared -/

theorem IsFull_mode (q : RingBufferQueue T) (b : Bool) :
    IsFull { q with is_lock_free := b } = q.IsFull := rfl

/-- C18. With a strong CAS (no attempt fails spuriously) and at least two
attempts allowed, for every state with `head < capacity`, `tail < capacity`
and `2 <= capacity`: `Enqueue(v)` on the concurrent-mode queue gives the flag
and the head, tail and buffer that it gives on the plain-mode queue in the
same state (and faults where that one faults), and so does `Dequeue` with
flag, result and state. On a queue that owns its cells and is not full (not
empty) one attempt is not enough: the loop makes a second, failing, CAS. -/
theorem modes_agree (q : RingBufferQueue T) (v r : T) (fuel f : Nat) (weak : List Bool)
    (h32 : q.capacity < UINT32_MOD) (hcap : 2 ≤ q.capacity)
    (hh : q.head < q.capacity) (ht : q.tail < q.capacity) (hfuel : 2 ≤ fuel) :
    Enqueue fuel [] { q with is_lock_free := true } v =
        (Enqueue f weak { q with is_lock_free := false } v).map
          (fun p => (p.1, { p.2 with is_lock_free := true })) ∧
      Dequeue fuel [] { q with is_lock_free := true } r =
        (Dequeue f weak { q with is_lock_free := false } r).map
          (fun p => (p.1, p.2.1, { p.2.2 with is_lock_free := true })) ∧
      (∀ cells, q.Allocated cells → q.IsFull = .ok false →
        Enqueue 1 [] { q with is_lock_free := true } v = .error .outOfFuel) ∧
      (∀ cells, q.Allocated cells → q.IsEmpty = false →
        Dequeue 1 [] { q with is_lock_free := true } r = .error .outOfFuel) := by
  have hc : q.capacity ≠ 0 := by omega
  obtain ⟨g, rfl⟩ : ∃ g, fuel = g + 2 := ⟨fuel - 2, by omega⟩
  have hte := uint32_succ_mod q.tail q.capacity ht h32
  have hhe := uint32_succ_mod q.head q.capacity hh h32
  have htm : (q.tail + 1) % q.capacity ≠ q.tail := by
    rw [succ_mod_cases q.tail q.capacity ht]; split_ifs <;> omega
  have hhm : (q.head + 1) % q.capacity ≠ q.head := by
    rw [succ_mod_cases q.head q.capacity hh]; split_ifs <;> omega
  refine ⟨?_, ?_, ?_, ?_⟩
  · simp only [Enqueue, IsFull_mode]
    rw [IsFull_of_pos q (by omega)]
    by_cases hfull : (q.tail + 1) % UINT32_MOD % q.capacity = q.head
    · simp [hfull, Except.map]
    · simp only [hfull, decide_False, if_true, Bool.false_eq_true, if_false, EnqueueLockFree,
        EnqueueNoLockFree]
      rw [EnqueueLockFreeLoop_succ v (g + 1) [] { q with is_lock_free := true } q.tail hc]
      cases hw : q.data.write q.tail v with
      | error e => simp [hw, Except.map]
      | ok d =>
        simp only [hw, List.headD_nil, and_self, if_true, if_neg hc]
        rw [EnqueueLockFreeLoop_succ v g ([] : List Bool).tail
          { q with is_lock_free := true, tail := (q.tail + 1) % UINT32_MOD % q.capacity,
                   data := d } q.tail hc]
        simp [hte, htm, Except.map]
  · simp only [Dequeue, IsEmpty]
    by_cases hempty : q.head = q.tail
    · simp [hempty, Except.map]
    · simp only [hempty, decide_False, if_true, Bool.false_eq_true, if_false, DequeueLockFree,
        DequeueNoLockFree]
      rw [DequeueLockFreeLoop_succ (g + 1) [] { q with is_lock_free := true } q.head r hc]
      cases hr : q.data.read q.head with
      | error e => simp [hr, Except.map]
      | ok x =>
        simp only [hr, List.headD_nil, and_self, if_true, if_neg hc]
        rw [DequeueLockFreeLoop_succ g ([] : List Bool).tail
          { q with is_lock_free := true, head := (q.head + 1) % UINT32_MOD % q.capacity }
          q.head x hc]
        simp [hhe, hhm, Except.map]
  · rintro cells ⟨hdata, hlen⟩ hnf
    have hw : q.tail < cells.length := by omega
    simp only [Enqueue, IsFull_mode, hnf, if_true, EnqueueLockFree]
    rw [EnqueueLockFreeLoop_succ v 0 [] { q with is_lock_free := true } q.tail hc]
    simp [hdata, Storage.write, hw, EnqueueLockFreeLoop]
  · rintro cells ⟨hdata, hlen⟩ hne
    have hr : q.head < cells.length := by omega
    have hne1 : IsEmpty { q with is_lock_free := true } = false := hne
    simp only [Dequeue, hne1, if_true, Bool.false_eq_true, if_false, DequeueLockFree]
    rw [DequeueLockFreeLoop_succ 0 [] { q with is_lock_free := true } q.head r hc]
    simp [hdata, Storage.read, hr, DequeueLockFreeLoop]


/-- Instance of C18 on `wrapQueue`. -/
theorem modes_agree_witness :
    wrapQueue.capacity < UINT32_MOD ∧ 2 ≤ wrapQueue.capacity ∧
      wrapQueue.head < wrapQueue.capacity ∧ wrapQueue.tail < wrapQueue.capacity ∧ 2 ≤ 2 ∧
      (Enqueue 2 [] { wrapQueue with is_lock_free := true } 30 =
          (Enqueue 0 [] { wrapQueue with is_lock_free := false } 30).map
            (fun p => (p.1, { p.2 with is_lock_free := true })) ∧
        Dequeue 2 [] { wrapQueue with is_lock_free := true } 0 =
          (Dequeue 0 [] { wrapQueue with is_lock_free := false } 0).map
            (fun p => (p.1, p.2.1, { p.2.2 with is_lock_free := true })) ∧
        (∀ cells, wrapQueue.Allocated cells → wrapQueue.IsFull = .ok false →
          Enqueue 1 [] { wrapQueue with is_lock_free := true } 30 = .error .outOfFuel) ∧
        (∀ cells, wrapQueue.Allocated cells → wrapQueue.IsEmpty = false →
          Dequeue 1 [] { wrapQueue with is_lock_free := true } 0 = .error .outOfFuel)) :=
  ⟨by decide, by decide, by decide, by decide, by decide,
    modes_agree wrapQueue 30 0 2 0 [] (by decide) (by decide) (by decide) (by decide)
      (by decide)⟩

/-! ### Every call returns and keeps the invariant -/

theorem Enqueue_returns (N : Nat) (lock_free : Bool) (fuel : Nat) (weak : List Bool)
    (q : RingBufferQueue T) (v : T) (hN : N + 1 < UINT32_MOD) (hinv : Inv N lock_free q)
    (hfuel : 2 ≤ fuel) : ∃ b q1, q.Enqueue fuel weak v = .ok (b, q1) := by
  obtain ⟨cells, halloc⟩ := hinv.allocated
  have hc := hinv.capacity_eq
  by_cases hfull : q.count = N
  · have hf : q.IsFull = .ok true := by rw [hinv.IsFull_eq hN]; simp [hfull]
    exact ⟨false, q, by simp [Enqueue, hf]⟩
  · have hnf : q.IsFull = .ok false := by rw [hinv.IsFull_eq hN]; simp [hfull]
    cases hs : weak.headD false
    · exact ⟨true, _, Enqueue_of_not_full fuel weak q cells v halloc (by omega) hinv.head_lt
        hinv.tail_lt hnf (fun _ => ⟨hfuel, hs⟩)⟩
    · cases hm : q.is_lock_free
      · exact ⟨true, _, Enqueue_of_not_full fuel weak q cells v halloc (by omega) hinv.head_lt
          hinv.tail_lt hnf (fun h => by rw [hm] at h; cases h)⟩
      · exact ⟨true, q, Enqueue_spurious fuel weak q v hnf hm hs (by omega)⟩

theorem Dequeue_returns (N : Nat) (lock_free : Bool) (fuel : Nat) (weak : List Bool)
    (q : RingBufferQueue T) (r : T) (hN : N + 1 < UINT32_MOD) (hinv : Inv N lock_free q)
    (hfuel : 2 ≤ fuel) : ∃ b r1 q1, q.Dequeue fuel weak r = .ok (b, r1, q1) := by
  obtain ⟨cells, halloc⟩ := hinv.allocated
  have hc := hinv.capacity_eq
  cases he : q.IsEmpty
  · cases hs : weak.headD false
    · obtain ⟨x, -, hx⟩ := Dequeue_of_not_empty fuel weak q cells r halloc (by omega)
        hinv.head_lt hinv.tail_lt he (fun _ => ⟨hfuel, hs⟩)
      exact ⟨true, x, _, hx⟩
    · cases hm : q.is_lock_free
      · obtain ⟨x, -, hx⟩ := Dequeue_of_not_empty fuel weak q cells r halloc (by omega)
          hinv.head_lt hinv.tail_lt he (fun h => by rw [hm] at h; cases h)
        exact ⟨true, x, _, hx⟩
      · exact ⟨true, r, q, Dequeue_spurious fuel weak q r (by omega) he hm hs (by omega)⟩
  · exact ⟨false, r, q, by simp [Dequeue, he]⟩

theorem copyConstruct_of_allocated [Inhabited T] (s : RingBufferQueue T) (cells : List T)
    (halloc : s.Allocated cells) (hpos : 0 < s.capacity) : copyConstruct s = .ok s := by
  obtain ⟨hdata, hlen⟩ := halloc
  have hcopy := Storage.copy_all cells
  rw [hlen, ← hdata] at hcopy
  simp [copyConstruct, hpos, hcopy]

theorem copyAssign_of_allocated [Inhabited T] (d s : RingBufferQueue T) (cells : List T)
    (halloc : s.Allocated cells) (hd : d.data ≠ Storage.indeterminate) :
    copyAssign d s false = .ok s := by
  obtain ⟨hdata, hlen⟩ := halloc
  have hcopy := Storage.copy_all cells
  rw [hlen, ← hdata] at hcopy
  have hdel : Storage.delete d.data = .ok () := by
    cases hdd : d.data with
    | null => rfl
    | indeterminate => exact absurd hdd hd
    | array _ => rfl
  simp [copyAssign, hdel, hcopy]

/-- C19. For every queue built with `N + 1 < 2^32`, in either mode, and every
state `q` it takes through calls of `Enqueue` and `Dequeue` (whatever they
return, whatever the CAS does): `head < capacity`, `tail < capacity`,
`capacity == N + 1` and the mode is the constructed one; a copy of `q`
(constructed, or assigned to a queue with a null or owned `data`) is `q`
itself; and every further `Enqueue` or `Dequeue` returns (two CAS attempts
suffice) in a state of the same kind. -/
theorem index_bounds_invariant [Inhabited T] (N : Nat) (lock_free : Bool)
    (q : RingBufferQueue T) (hN : N + 1 < UINT32_MOD) (hreach : Reachable N lock_free q) :
    q.head < q.capacity ∧ q.tail < q.capacity ∧ q.capacity = N + 1 ∧
      q.is_lock_free = lock_free ∧
      copyConstruct q = .ok q ∧
      (∀ d : RingBufferQueue T, d.data ≠ Storage.indeterminate → copyAssign d q false = .ok q) ∧
      (∀ fuel weak v, 2 ≤ fuel →
        ∃ b q1, q.Enqueue fuel weak v = .ok (b, q1) ∧ Reachable N lock_free q1) ∧
      (∀ fuel weak r, 2 ≤ fuel →
        ∃ b r1 q1, q.Dequeue fuel weak r = .ok (b, r1, q1) ∧ Reachable N lock_free q1) := by
  have hinv := hreach.inv hN
  obtain ⟨cells, halloc⟩ := hinv.allocated
  refine ⟨hinv.head_lt, hinv.tail_lt, hinv.capacity_eq, hinv.mode_eq,
    copyConstruct_of_allocated q cells halloc (by have := hinv.head_lt; omega),
    fun d hd => copyAssign_of_allocated d q cells halloc hd, ?_, ?_⟩
  · intro fuel weak v hfuel
    obtain ⟨b, q1, h⟩ := Enqueue_returns N lock_free fuel weak q v hN hinv hfuel
    exact ⟨b, q1, h, Reachable.enqueue fuel weak v hreach h⟩
  · intro fuel weak r hfuel
    obtain ⟨b, r1, q1, h⟩ := Dequeue_returns N lock_free fuel weak q r hN hinv hfuel
    exact ⟨b, r1, q1, h, Reachable.dequeue fuel weak r hreach h⟩

/-- Instance of C19 on `wrapQueue`. -/
theorem index_bounds_invariant_witness :
    3 + 1 < UINT32_MOD ∧ Reachable 3 false wrapQueue ∧
      wrapQueue.head < wrapQueue.capacity ∧ wrapQueue.tail < wrapQueue.capacity ∧
      wrapQueue.capacity = 3 + 1 ∧ wrapQueue.is_lock_free = false ∧
      copyConstruct wrapQueue = .ok wrapQueue :=
  ⟨by decide, wrapQueue_reachable,
    (index_bounds_invariant 3 false wrapQueue (by decide) wrapQueue_reachable).1,
    (index_bounds_invariant 3 false wrapQueue (by decide) wrapQueue_reachable).2.1,
    (index_bounds_invariant 3 false wrapQueue (by decide) wrapQueue_reachable).2.2.1,
    (index_bounds_invariant 3 false wrapQueue (by decide) wrapQueue_reachable).2.2.2.1,
    (index_bounds_invariant 3 false wrapQueue (by decide) wrapQueue_reachable).2.2.2.2.1⟩


/-! ### Counting the elements -/

theorem runCalls_spec (N : Nat) (lock_free : Bool) (fuel : Nat) (weak : List Bool) (r0 : T)
    (hN : N + 1 < UINT32_MOD)
    (hcas : lock_free = true → 2 ≤ fuel ∧ weak.headD false = false) :
    ∀ (cs : List (Call T)) (q : RingBufferQueue T), Inv N lock_free q →
      ∃ ne nd q1, runCalls fuel weak r0 q cs = .ok (ne, nd, q1) ∧ Inv N lock_free q1 ∧
        q.count + ne = nd + q1.count := by
  intro cs
  induction cs with
  | nil => intro q hinv; exact ⟨0, 0, q, rfl, hinv, by omega⟩
  | cons c cs ih =>
    intro q hinv
    cases c with
    | enqueue v =>
      by_cases hfull : q.count = N
      · have hf : q.IsFull = .ok true := by rw [hinv.IsFull_eq hN]; simp [hfull]
        obtain ⟨ne, nd, q2, h2, hinv2, hn2⟩ := ih q hinv
        refine ⟨ne, nd, q2, ?_, hinv2, hn2⟩
        simp [runCalls, Enqueue, hf, h2]
      · have hle := hinv.count_le
        obtain ⟨q1, h1, hinv1, -, hn1, -, -⟩ :=
          Enqueue_step N lock_free fuel weak q v hN hinv (by omega) hcas
        obtain ⟨ne, nd, q2, h2, hinv2, hn2⟩ := ih q1 hinv1
        refine ⟨ne + 1, nd, q2, ?_, hinv2, by omega⟩
        simp [runCalls, h1, h2]
    | dequeue =>
      by_cases hempty : q.count = 0
      · have he : q.IsEmpty = true := by rw [hinv.IsEmpty_eq]; simp [hempty]
        obtain ⟨ne, nd, q2, h2, hinv2, hn2⟩ := ih q hinv
        refine ⟨ne, nd, q2, ?_, hinv2, hn2⟩
        simp [runCalls, Dequeue, he, h2]
      · obtain ⟨x, q1, h1, hinv1, -, hn1, -, -⟩ :=
          Dequeue_step N lock_free fuel weak q r0 hN hinv (by omega) hcas
        obtain ⟨ne, nd, q2, h2, hinv2, hn2⟩ := ih q1 hinv1
        refine ⟨ne, nd + 1, q2, ?_, hinv2, by omega⟩
        simp [runCalls, h1, h2]

/-- In plain mode, and in concurrent mode when no first CAS fails spuriously:
after any sequence of calls on the queue built with `N + 1 < 2^32`, the calls
of `Enqueue` that returned true less those of `Dequeue` that returned true are
`(tail - head) mod capacity`, the length of the logical contents; this is at
most `N`, `IsFull()` says whether it is `N` and `IsEmpty()` whether it is 0. -/
theorem count_accounting [Inhabited T] (N : Nat) (lock_free : Bool) (fuel : Nat)
    (weak : List Bool) (r0 : T) (cs : List (Call T)) (hN : N + 1 < UINT32_MOD)
    (hcas : lock_free = true → 2 ≤ fuel ∧ weak.headD false = false) :
    ∃ ne nd q1, runCalls fuel weak r0 (construct N lock_free) cs = .ok (ne, nd, q1) ∧
      ne = nd + q1.count ∧ q1.contents.length = q1.count ∧ q1.count ≤ N ∧
      q1.IsFull = .ok (decide (q1.count = N)) ∧ q1.IsEmpty = decide (q1.count = 0) := by
  obtain ⟨ne, nd, q1, h1, hinv1, hn1⟩ :=
    runCalls_spec N lock_free fuel weak r0 hN hcas cs _ (construct_inv N lock_free hN)
  rw [construct_count, Nat.zero_add] at hn1
  exact ⟨ne, nd, q1, h1, hn1, hinv1.contents_length, hinv1.count_le, hinv1.IsFull_eq hN,
    hinv1.IsEmpty_eq⟩

/-- C20 on the code, in concurrent mode with a first CAS that fails
spuriously: on the fresh queue of logical capacity 2 the single call
`Enqueue(5)` returns true, so one `Enqueue` and no `Dequeue` succeeded, while
`(tail - head) mod capacity` is still 0 and the queue still says it is empty. -/
theorem count_accounting_fails_on_spurious_cas :
    Reachable 2 true lockFreeFresh ∧
      runCalls 2 [true] 0 lockFreeFresh [Call.enqueue 5] = .ok (1, 0, lockFreeFresh) ∧
      lockFreeFresh.count = 0 ∧ lockFreeFresh.contents = [] ∧
      lockFreeFresh.IsEmpty = true :=
  ⟨Reachable.construct (by decide), by decide, by decide, by decide, by decide⟩


/-! ### Rendering -/

theorem slotsFrom_getElem (cells : List T) (c : Nat) (hlen : cells.length = c) :
    ∀ (n i start : Nat), start < c → i < n →
      (slotsFrom cells c start n)[i]? = cells[(start + i) % c]? := by
  intro n
  induction n with
  | zero => intro i start _ hi; omega
  | succ n ih =>
    intro i start hs hi
    rw [slotsFrom_succ cells c start n (by omega)]
    cases i with
    | zero =>
      simp only [List.getElem?_cons_zero, Nat.add_zero, Nat.mod_eq_of_lt hs]
      exact (List.getElem?_eq_getElem (by omega)).symm
    | succ i =>
      rw [List.getElem?_cons_succ, ih i ((start + 1) % c) (Nat.mod_lt _ (by omega)) (by omega),
        Nat.mod_add_mod]
      congr 2
      omega

theorem operator_lshift_loop_spec (fmt : T → String) (q : RingBufferQueue T) (cells : List T)
    (halloc : q.Allocated cells) (h32 : q.capacity < UINT32_MOD) (hh : q.head < q.capacity)
    (ht : q.tail < q.capacity) :
    ∀ (n fuel next : Nat) (os : String), next < q.capacity →
      (q.tail + q.capacity - next) % q.capacity = n + 1 → n + 1 < q.count → n + 1 ≤ fuel →
      operator_lshift_loop fmt q fuel next os =
        .ok (os ++ withCommas fmt (slotsFrom cells q.capacity next (n + 1))) := by
  obtain ⟨hdata, hlen⟩ := halloc
  have hc : q.capacity ≠ 0 := by omega
  intro n
  induction n with
  | zero =>
    intro fuel next os hnext hd hlt hfuel
    obtain ⟨f, rfl⟩ : ∃ f, fuel = f + 1 := ⟨fuel - 1, by omega⟩
    have hne_head : next ≠ q.head := by
      intro e; rw [e] at hd; unfold count at hlt; omega
    have hne_tail : next ≠ q.tail := by
      intro e
      have := (empty_iff_dist q.tail next q.capacity hnext ht).1 e
      omega
    have hstep := dist_succ_head q.tail next q.capacity hnext ht hne_tail
    have hnext1 : (next + 1) % q.capacity = q.tail :=
      (empty_iff_dist q.tail _ q.capacity (Nat.mod_lt _ (by omega)) ht).2 (by omega)
    have hr : next < cells.length := by omega
    simp [operator_lshift_loop, hne_head, hdata, Storage.read, hr, hc,
      uint32_succ_mod next q.capacity hnext h32, hnext1, slotsFrom, withCommas,
      String.append_assoc]
  | succ n ih =>
    intro fuel next os hnext hd hlt hfuel
    obtain ⟨f, rfl⟩ : ∃ f, fuel = f + 1 := ⟨fuel - 1, by omega⟩
    have hne_head : next ≠ q.head := by
      intro e; rw [e] at hd; unfold count at hlt; omega
    have hne_tail : next ≠ q.tail := by
      intro e
      have := (empty_iff_dist q.tail next q.capacity hnext ht).1 e
      omega
    have hstep := dist_succ_head q.tail next q.capacity hnext ht hne_tail
    have hlt1 : (next + 1) % q.capacity < q.capacity := Nat.mod_lt _ (by omega)
    have hnext1 : (next + 1) % q.capacity ≠ q.tail := by
      intro e
      have := (empty_iff_dist q.tail _ q.capacity hlt1 ht).1 e
      omega
    have hr : next < cells.length := by omega
    have hrec := ih f ((next + 1) % q.capacity) (os ++ (", " ++ fmt cells[next])) hlt1
      (by omega) (by omega) (by omega)
    rw [slotsFrom_succ cells q.capacity next (n + 1) hr]
    simp only [operator_lshift_loop, hdata, Storage.read, List.getElem?_eq_getElem hr,
      if_neg hc, uint32_succ_mod next q.capacity hnext h32, ne_eq, hne_head, hnext1,
      not_false_eq_true, if_true, withCommas, String.append_assoc]
    rw [hrec]
    simp only [String.append_assoc]


/-- C15. For every state that owns its `capacity` cells, with
`head < capacity` and `tail < capacity`: `operator<<` returns once its loop may
make `(tail - head) mod capacity` passes; it appends "[]" and a newline when
`head == tail`, and otherwise "[", the logical contents separated by ", ", "]"
and a newline. The contents are `(tail - head) mod capacity` elements, the
`i`-th being the slot `(head + i) mod capacity`. The queue is a `const&`. -/
theorem operator_lshift_renders (fmt : T → String) (os : String) (q : RingBufferQueue T)
    (cells : List T) (fuel : Nat) (halloc : q.Allocated cells) (h32 : q.capacity < UINT32_MOD)
    (hh : q.head < q.capacity) (ht : q.tail < q.capacity) (hfuel : q.count ≤ fuel) :
    (q.head = q.tail → operator_lshift fuel fmt os q = .ok (os ++ "[]" ++ "\n")) ∧
      (q.head ≠ q.tail → operator_lshift fuel fmt os q =
        .ok (os ++ "[" ++ commaSeparated fmt q.contents ++ "]" ++ "\n")) ∧
      q.contents.length = (q.tail + q.capacity - q.head) % q.capacity ∧
      ∀ i, i < q.contents.length → q.contents[i]? = cells[(q.head + i) % q.capacity]? := by
  have hc : q.capacity ≠ 0 := by omega
  have hdata := halloc.1
  have hlen := halloc.2
  have hcont : q.contents = slotsFrom cells q.capacity q.head q.count := by
    simp only [contents, hdata]
  have hlength : q.contents.length = q.count := by
    rw [hcont]
    exact slotsFrom_length cells q.capacity hlen _ _ hh
  refine ⟨?_, ?_, hlength, ?_⟩
  · intro he
    simp [operator_lshift, IsEmpty, he]
  · intro hne
    have hpos : q.count ≠ 0 := by
      intro e
      exact hne ((empty_iff_dist q.tail q.head q.capacity hh ht).2 e)
    obtain ⟨f, rfl⟩ : ∃ f, fuel = f + 1 := ⟨fuel - 1, by omega⟩
    have hstep := dist_succ_head q.tail q.head q.capacity hh ht hne
    have hlt1 : (q.head + 1) % q.capacity < q.capacity := Nat.mod_lt _ (by omega)
    have hr : q.head < cells.length := by omega
    have hie : q.IsEmpty = false := by simp [IsEmpty, hne]
    obtain ⟨m, hm⟩ : ∃ m, q.count = m + 1 := ⟨q.count - 1, by omega⟩
    have hd1 : (q.tail + q.capacity - (q.head + 1) % q.capacity) % q.capacity = m := by
      unfold count at hm; omega
    rw [hcont, hm, slotsFrom_succ cells q.capacity q.head m hr]
    simp only [operator_lshift, hie, Bool.false_eq_true, if_false, operator_lshift_loop, ne_eq,
      not_true_eq_false, hdata, Storage.read, List.getElem?_eq_getElem hr, if_neg hc,
      uint32_succ_mod q.head q.capacity hh h32, commaSeparated]
    cases m with
    | zero =>
      have hnext1 : (q.head + 1) % q.capacity = q.tail :=
        (empty_iff_dist q.tail _ q.capacity hlt1 ht).2 hd1
      simp [hnext1, slotsFrom, withCommas, String.append_assoc]
    | succ n =>
      have hnext1 : (q.head + 1) % q.capacity ≠ q.tail := by
        intro e
        have := (empty_iff_dist q.tail _ q.capacity hlt1 ht).1 e
        omega
      have hrec := operator_lshift_loop_spec fmt q cells halloc h32 hh ht n f
        ((q.head + 1) % q.capacity) (os ++ ("[" ++ fmt cells[q.head])) hlt1 hd1 (by omega)
        (by omega)
      simp only [hnext1, not_false_eq_true, if_true, String.append_assoc]
      rw [hrec]
      simp only [String.append_assoc]
  · intro i hi
    rw [hcont]
    exact slotsFrom_getElem cells q.capacity hlen q.count i q.head hh (by omega)

/-- Instance of C15 on the test of src/Test.cpp: `std::cout << q3` writes
"[10, 12, 14, 16, 18, 0, 3, 6, 9, 12]" and a newline. -/
theorem operator_lshift_renders_witness :
    copyDemoSource.Allocated [3, 6, 9, 12, 8, 10, 12, 14, 16, 18, 0] ∧
      copyDemoSource.capacity < UINT32_MOD ∧ copyDemoSource.head < copyDemoSource.capacity ∧
      copyDemoSource.tail < copyDemoSource.capacity ∧ copyDemoSource.count ≤ 10 ∧
      copyDemoSource.head ≠ copyDemoSource.tail ∧
      operator_lshift 10 (fun x : Int => toString x) "" copyDemoSource =
        .ok ("" ++ "[" ++ commaSeparated (fun x : Int => toString x) copyDemoSource.contents ++
          "]" ++ "\n") ∧
      operator_lshift 10 (fun x : Int => toString x) "" copyDemoSource =
        .ok "[10, 12, 14, 16, 18, 0, 3, 6, 9, 12]\n" :=
  ⟨⟨rfl, rfl⟩, by decide, by decide, by decide, by decide, by decide,
    (operator_lshift_renders (fun x : Int => toString x) "" copyDemoSource
      [3, 6, 9, 12, 8, 10, 12, 14, 16, 18, 0] 10 ⟨rfl, rfl⟩ (by decide) (by decide) (by decide)
      (by decide)).2.1 (by decide),
    by decide⟩

end RingBufferQueue

end RingBuffer
